import Mathlib

/-!
Shallow embedding of the OS memory-manager simulation
(`src/Memory_Simulator/memory_manager.py`).

A block is a dictionary `{'start', 'size', 'status', 'pid'}` in the source;
the block list `memory` together with `total_memory_size` makes up the
manager state.  All Python integers are modelled as `Int`, the status
string as a two-constructor inductive, the strategy string as `String`,
and `None` for `pid` as `Option Int`.
-/

/-- The `status` field of a block: the source uses the strings
`'free'` and `'occupied'`. -/
inductive Status where
  | free : Status
  | occupied : Status
deriving DecidableEq, Repr

/-- One memory block: `{'start': int, 'size': int, 'status': str, 'pid': int or None}`. -/
structure Block where
  start : Int
  size : Int
  status : Status
  pid : Option Int
deriving DecidableEq, Repr

/-- The manager state: `total_memory_size` and the block list `self.memory`. -/
structure MemoryManager where
  total_memory_size : Int
  memory : List Block
deriving DecidableEq, Repr

/-- `MemoryManager.__init__`: raises `ValueError` when the total size is not
positive (modelled as `none`), otherwise starts with one free block covering
the whole space. -/
def MemoryManager.init (total_memory_size : Int) : Option MemoryManager :=
  if total_memory_size ≤ 0 then none
  else some ⟨total_memory_size, [⟨0, total_memory_size, Status.free, none⟩]⟩

/-- `_find_block_first_fit`: index of the first block with
`block['status'] == 'free' and block['size'] >= size_required`. -/
def find_block_first_fit (mem : List Block) (size_required : Int) : Option Nat :=
  match mem with
  | [] => none
  | b :: bs =>
    if b.status = Status.free ∧ size_required ≤ b.size then some 0
    else (find_block_first_fit bs size_required).map (fun i => i + 1)

/-- The scanning loop of `_find_block_best_fit`.  The accumulator holds
`(best_fit_index, min_fragmentation)`; `none` models the initial state
`best_fit_index = None, min_fragmentation = float('inf')` (every candidate
fragmentation compares strictly below infinity). -/
def find_block_best_fit_aux (size_required : Int) :
    List Block → Nat → Option (Nat × Int) → Option (Nat × Int)
  | [], _, best => best
  | b :: bs, i, best =>
    if b.status = Status.free ∧ size_required ≤ b.size then
      match best with
      | none =>
        find_block_best_fit_aux size_required bs (i + 1) (some (i, b.size - size_required))
      | some (bi, mf) =>
        if b.size - size_required < mf then
          find_block_best_fit_aux size_required bs (i + 1) (some (i, b.size - size_required))
        else
          find_block_best_fit_aux size_required bs (i + 1) (some (bi, mf))
    else
      find_block_best_fit_aux size_required bs (i + 1) best

/-- `_find_block_best_fit`: index of the free block (of size at least
`size_required`) with minimum fragmentation, first such block on ties. -/
def find_block_best_fit (mem : List Block) (size_required : Int) : Option Nat :=
  (find_block_best_fit_aux size_required mem 0 none).map Prod.fst

/-- `allocate_memory`: guards (`size_required <= 0`, unknown strategy),
candidate search by the chosen strategy, then either an exact-fit in-place
conversion (`self.memory.set`) or a split
(`self.memory[block_index:block_index+1] = [new_occupied_block, new_free_block]`,
modelled by `take`/`drop` splicing).  Returns the allocated start address
(`none` on failure) together with the resulting state. -/
def allocate_memory (m : MemoryManager) (process_id : Int) (size_required : Int)
    (strategy : String) : Option Int × MemoryManager :=
  if size_required ≤ 0 then (none, m)
  else if strategy ≠ "first_fit" ∧ strategy ≠ "best_fit" then (none, m)
  else
    let found :=
      if strategy = "first_fit" then find_block_first_fit m.memory size_required
      else find_block_best_fit m.memory size_required
    match found with
    | none => (none, m)
    | some block_index =>
      match m.memory[block_index]? with
      | none => (none, m)
      | some b =>
        if b.size = size_required then
          (some b.start,
           ⟨m.total_memory_size,
            m.memory.set block_index ⟨b.start, b.size, Status.occupied, some process_id⟩⟩)
        else
          (some b.start,
           ⟨m.total_memory_size,
            m.memory.take block_index ++
              [⟨b.start, size_required, Status.occupied, some process_id⟩,
               ⟨b.start + size_required, b.size - size_required, Status.free, none⟩] ++
              m.memory.drop (block_index + 1)⟩)

/-- The search loop of `deallocate_memory`: index of the first block with
`block['status'] == 'occupied' and block['pid'] == process_id`. -/
def find_occupied_index (mem : List Block) (process_id : Int) : Option Nat :=
  match mem with
  | [] => none
  | b :: bs =>
    if b.status = Status.occupied ∧ b.pid = some process_id then some 0
    else (find_occupied_index bs process_id).map (fun i => i + 1)

/-- The merging scan of `_coalesce_free_blocks` (before the final sort).
The source merges each maximal run of consecutive free blocks into its first
block (a copy of `current_block` with the run's summed size) and copies
occupied blocks through unchanged.  Folding from the right and merging the
head into an already-merged run computes the same per-run result: the run's
first block carries its own `start`, `status` and `pid` and the summed
size. -/
def coalesceAux : List Block → List Block
  | [] => []
  | b :: bs =>
    match coalesceAux bs with
    | [] => [b]
    | c :: cs =>
      if b.status = Status.free ∧ c.status = Status.free then
        ⟨b.start, b.size + c.size, b.status, b.pid⟩ :: cs
      else
        b :: c :: cs

/-- The comparison used by `self.memory.sort(key=lambda block: block['start'])`. -/
def startLe (a b : Block) : Prop := a.start ≤ b.start

instance : DecidableRel startLe :=
  fun a b => inferInstanceAs (Decidable (a.start ≤ b.start))

/-- `_coalesce_free_blocks`: merge adjacent free runs, then (stably) re-sort
the list by start address.  Python's `list.sort` is a stable sort by the
given key, and every stable sort by the same key computes the same list, so
it is modelled by stable insertion sort on the `start` ordering. -/
def coalesce_free_blocks (mem : List Block) : List Block :=
  List.insertionSort startLe (coalesceAux mem)

/-- `deallocate_memory`: find the first occupied block of the process, mark
it free (clearing the pid), then coalesce.  Returns the source's boolean
success flag with the resulting state. -/
def deallocate_memory (m : MemoryManager) (process_id : Int) : Bool × MemoryManager :=
  match find_occupied_index m.memory process_id with
  | none => (false, m)
  | some i =>
    match m.memory[i]? with
    | none => (false, m)
    | some b =>
      (true,
       ⟨m.total_memory_size,
        coalesce_free_blocks (m.memory.set i ⟨b.start, b.size, Status.free, none⟩)⟩)

/-- One externally issued core call. -/
inductive Op where
  | alloc (process_id : Int) (size_required : Int) (strategy : String) : Op
  | dealloc (process_id : Int) : Op
deriving DecidableEq, Repr

/-- Apply one call to the manager state (discarding the returned value). -/
def applyOp (m : MemoryManager) : Op → MemoryManager
  | Op.alloc p s st => (allocate_memory m p s st).2
  | Op.dealloc p => (deallocate_memory m p).2

/-- Run a finite sequence of core calls. -/
def run (m : MemoryManager) : List Op → MemoryManager
  | [] => m
  | op :: ops => run (applyOp m op) ops

/-- A block is an allocation candidate: free and large enough. -/
def eligibleBlock (size_required : Int) (b : Block) : Prop :=
  b.status = Status.free ∧ size_required ≤ b.size

instance (size_required : Int) (b : Block) : Decidable (eligibleBlock size_required b) := by
  unfold eligibleBlock; infer_instance

/-- The block list is gapless starting from address `a`: each block starts
where the previous one ended. -/
def chainFrom (a : Int) : List Block → Prop
  | [] => True
  | b :: bs => b.start = a ∧ chainFrom (a + b.size) bs

instance (a : Int) (l : List Block) : Decidable (chainFrom a l) := by
  induction l generalizing a with
  | nil => exact isTrue trivial
  | cons b bs ih => unfold chainFrom; exact @instDecidableAnd _ _ _ (ih (a + b.size))

/-- Sum of the `size` fields. -/
def sumSizes (l : List Block) : Int := (l.map Block.size).sum

/-- No two adjacent blocks are both free. -/
def noAdjFree (l : List Block) : Prop :=
  List.Chain' (fun a b => ¬(a.status = Status.free ∧ b.status = Status.free)) l

/-- Number of occupied blocks carrying the given pid. -/
def countOwner (mem : List Block) (p : Int) : Nat :=
  mem.countP (fun b => decide (b.status = Status.occupied ∧ b.pid = some p))

/-- The state invariant maintained by the manager: gapless from 0, positive
sizes, sizes summing to the total, no adjacent free blocks, and free blocks
carrying no pid. -/
def MgrInv (m : MemoryManager) : Prop :=
  chainFrom 0 m.memory ∧ (∀ b ∈ m.memory, 0 < b.size) ∧
    sumSizes m.memory = m.total_memory_size ∧ noAdjFree m.memory ∧
    (∀ b ∈ m.memory, b.status = Status.free → b.pid = none)

/-- Every allocate call in the trace uses an owner that holds no occupied
block at the moment of the call. -/
def FreshAllocs : MemoryManager → List Op → Prop
  | _, [] => True
  | m, Op.alloc p s st :: ops =>
      countOwner m.memory p = 0 ∧ FreshAllocs (applyOp m (Op.alloc p s st)) ops
  | m, Op.dealloc p :: ops => FreshAllocs (applyOp m (Op.dealloc p)) ops

/-- Decision procedure for `FreshAllocs`, following its recursion. -/
def decFreshAllocs : (m : MemoryManager) → (ops : List Op) → Decidable (FreshAllocs m ops)
  | _, [] => isTrue trivial
  | m, Op.alloc p s st :: ops =>
    @instDecidableAnd _ _ (Nat.decEq (countOwner m.memory p) 0)
      (decFreshAllocs (applyOp m (Op.alloc p s st)) ops)
  | m, Op.dealloc p :: ops => decFreshAllocs (applyOp m (Op.dealloc p)) ops

instance (m : MemoryManager) (ops : List Op) : Decidable (FreshAllocs m ops) :=
  decFreshAllocs m ops

/-! ### Characterization of the candidate-search helpers -/

theorem find_block_first_fit_none_iff (mem : List Block) (sz : Int) :
    find_block_first_fit mem sz = none ↔ ∀ b ∈ mem, ¬ eligibleBlock sz b := by
  induction mem with
  | nil => simp [find_block_first_fit]
  | cons b bs ih =>
    by_cases h : b.status = Status.free ∧ sz ≤ b.size
    · simp [find_block_first_fit, if_pos h, eligibleBlock, h]
    · simp only [find_block_first_fit, if_neg h, List.mem_cons]
      constructor
      · intro hn c hc
        rcases hc with rfl | hc
        · exact fun he => h he
        · rcases Option.map_eq_none'.mp hn with hn'
          exact (ih.mp hn') c hc
      · intro hall
        have : find_block_first_fit bs sz = none :=
          ih.mpr (fun c hc => hall c (Or.inr hc))
        simp [this]

theorem find_block_first_fit_some (mem : List Block) (sz : Int) (i : Nat)
    (h : find_block_first_fit mem sz = some i) :
    ∃ l1 b l2, mem = l1 ++ b :: l2 ∧ l1.length = i ∧ eligibleBlock sz b ∧
      ∀ c ∈ l1, ¬ eligibleBlock sz c := by
  induction mem generalizing i with
  | nil => simp [find_block_first_fit] at h
  | cons b bs ih =>
    by_cases hb : b.status = Status.free ∧ sz ≤ b.size
    · refine ⟨[], b, bs, rfl, ?_, hb, by simp⟩
      simp only [find_block_first_fit, if_pos hb, Option.some.injEq] at h
      simp [← h]
    · simp only [find_block_first_fit, if_neg hb] at h
      rcases Option.map_eq_some'.mp h with ⟨j, hj, rfl⟩
      rcases ih j hj with ⟨l1, c, l2, rfl, hlen, hc, hl1⟩
      refine ⟨b :: l1, c, l2, rfl, by simp [hlen], hc, ?_⟩
      intro d hd
      rcases List.mem_cons.mp hd with rfl | hd
      · exact fun he => hb he
      · exact hl1 d hd

theorem find_occupied_index_none_iff (mem : List Block) (p : Int) :
    find_occupied_index mem p = none ↔
      ∀ b ∈ mem, ¬ (b.status = Status.occupied ∧ b.pid = some p) := by
  induction mem with
  | nil => simp [find_occupied_index]
  | cons b bs ih =>
    by_cases h : b.status = Status.occupied ∧ b.pid = some p
    · simp [find_occupied_index, if_pos h, h]
    · simp only [find_occupied_index, if_neg h, List.mem_cons]
      constructor
      · intro hn c hc
        rcases hc with rfl | hc
        · exact h
        · exact (ih.mp (Option.map_eq_none'.mp hn)) c hc
      · intro hall
        have : find_occupied_index bs p = none :=
          ih.mpr (fun c hc => hall c (Or.inr hc))
        simp [this]

theorem find_occupied_index_some (mem : List Block) (p : Int) (i : Nat)
    (h : find_occupied_index mem p = some i) :
    ∃ l1 b l2, mem = l1 ++ b :: l2 ∧ l1.length = i ∧
      b.status = Status.occupied ∧ b.pid = some p ∧
      ∀ c ∈ l1, ¬ (c.status = Status.occupied ∧ c.pid = some p) := by
  induction mem generalizing i with
  | nil => simp [find_occupied_index] at h
  | cons b bs ih =>
    by_cases hb : b.status = Status.occupied ∧ b.pid = some p
    · refine ⟨[], b, bs, rfl, ?_, hb.1, hb.2, by simp⟩
      simp only [find_occupied_index, if_pos hb, Option.some.injEq] at h
      simp [← h]
    · simp only [find_occupied_index, if_neg hb] at h
      rcases Option.map_eq_some'.mp h with ⟨j, hj, rfl⟩
      rcases ih j hj with ⟨l1, c, l2, rfl, hlen, hc1, hc2, hl1⟩
      refine ⟨b :: l1, c, l2, rfl, by simp [hlen], hc1, hc2, ?_⟩
      intro d hd
      rcases List.mem_cons.mp hd with rfl | hd
      · exact hb
      · exact hl1 d hd

theorem find_block_best_fit_aux_some_ne_none (sz : Int) (l : List Block) (i : Nat)
    (x : Nat × Int) : find_block_best_fit_aux sz l i (some x) ≠ none := by
  induction l generalizing i x with
  | nil => simp [find_block_best_fit_aux]
  | cons b bs ih =>
    by_cases hb : b.status = Status.free ∧ sz ≤ b.size
    · rcases x with ⟨bi, mf⟩
      by_cases hf : b.size - sz < mf
      · simpa [find_block_best_fit_aux, if_pos hb, if_pos hf] using ih (i + 1) _
      · simpa [find_block_best_fit_aux, if_pos hb, if_neg hf] using ih (i + 1) _
    · simpa [find_block_best_fit_aux, if_neg hb] using ih (i + 1) x

theorem find_block_best_fit_aux_none_iff (sz : Int) (l : List Block) (i : Nat) :
    find_block_best_fit_aux sz l i none = none ↔ ∀ b ∈ l, ¬ eligibleBlock sz b := by
  induction l generalizing i with
  | nil => simp [find_block_best_fit_aux]
  | cons b bs ih =>
    by_cases hb : b.status = Status.free ∧ sz ≤ b.size
    · simp only [find_block_best_fit_aux, if_pos hb]
      constructor
      · intro h
        exact absurd h (find_block_best_fit_aux_some_ne_none sz bs (i + 1) _)
      · intro hall
        exact absurd hb (hall b (List.mem_cons_self b bs))
    · simp only [find_block_best_fit_aux, if_neg hb, List.mem_cons]
      rw [ih (i + 1)]
      constructor
      · rintro h c (rfl | hc)
        · exact fun he => hb he
        · exact h c hc
      · intro h c hc
        exact h c (Or.inr hc)

theorem find_block_best_fit_aux_acc_spec (sz : Int) :
    ∀ (l : List Block) (i bi : Nat) (mf : Int) (j : Nat) (f : Int),
      find_block_best_fit_aux sz l i (some (bi, mf)) = some (j, f) →
      (j = bi ∧ f = mf ∧ ∀ b ∈ l, eligibleBlock sz b → mf ≤ b.size - sz) ∨
      (∃ l1 b l2, l = l1 ++ b :: l2 ∧ j = i + l1.length ∧ eligibleBlock sz b ∧
        f = b.size - sz ∧ f < mf ∧
        (∀ c ∈ l1, eligibleBlock sz c → f < c.size - sz) ∧
        (∀ c ∈ l2, eligibleBlock sz c → f ≤ c.size - sz)) := by
  intro l
  induction l with
  | nil =>
    intro i bi mf j f h
    simp only [find_block_best_fit_aux, Option.some.injEq, Prod.mk.injEq] at h
    exact Or.inl ⟨h.1.symm, h.2.symm, by simp⟩
  | cons b bs ih =>
    intro i bi mf j f h
    by_cases hb : b.status = Status.free ∧ sz ≤ b.size
    · by_cases hf : b.size - sz < mf
      · simp only [find_block_best_fit_aux, if_pos hb, if_pos hf] at h
        rcases ih (i + 1) i (b.size - sz) j f h with ⟨rfl, rfl, hall⟩ | hright
        · refine Or.inr ⟨[], b, bs, by simp, by simp, hb, rfl, hf, by simp, hall⟩
        · rcases hright with ⟨l1, c, l2, rfl, hj, hc, hfc, hlt, hl1, hl2⟩
          refine Or.inr ⟨b :: l1, c, l2, rfl, by simp [hj]; omega, hc, hfc, ?_, ?_, hl2⟩
          · exact lt_trans hlt hf
          · intro d hd
            rcases List.mem_cons.mp hd with rfl | hd
            · intro _; exact hlt
            · exact hl1 d hd
      · simp only [find_block_best_fit_aux, if_pos hb, if_neg hf] at h
        rcases ih (i + 1) bi mf j f h with ⟨rfl, rfl, hall⟩ | hright
        · refine Or.inl ⟨rfl, rfl, ?_⟩
          intro c hc he
          rcases List.mem_cons.mp hc with rfl | hc
          · omega
          · exact hall c hc he
        · rcases hright with ⟨l1, c, l2, rfl, hj, hc, hfc, hlt, hl1, hl2⟩
          refine Or.inr ⟨b :: l1, c, l2, rfl, by simp [hj]; omega, hc, hfc, hlt, ?_, hl2⟩
          intro d hd
          rcases List.mem_cons.mp hd with rfl | hd
          · intro _; omega
          · exact hl1 d hd
    · simp only [find_block_best_fit_aux, if_neg hb] at h
      rcases ih (i + 1) bi mf j f h with ⟨rfl, rfl, hall⟩ | hright
      · refine Or.inl ⟨rfl, rfl, ?_⟩
        intro c hc he
        rcases List.mem_cons.mp hc with rfl | hc
        · exact absurd he hb
        · exact hall c hc he
      · rcases hright with ⟨l1, c, l2, rfl, hj, hc, hfc, hlt, hl1, hl2⟩
        refine Or.inr ⟨b :: l1, c, l2, rfl, by simp [hj]; omega, hc, hfc, hlt, ?_, hl2⟩
        intro d hd
        rcases List.mem_cons.mp hd with rfl | hd
        · exact fun he => absurd he hb
        · exact hl1 d hd

theorem find_block_best_fit_aux_start_spec (sz : Int) :
    ∀ (l : List Block) (i j : Nat) (f : Int),
      find_block_best_fit_aux sz l i none = some (j, f) →
      ∃ l1 b l2, l = l1 ++ b :: l2 ∧ j = i + l1.length ∧ eligibleBlock sz b ∧
        f = b.size - sz ∧
        (∀ c ∈ l1, eligibleBlock sz c → f < c.size - sz) ∧
        (∀ c ∈ l2, eligibleBlock sz c → f ≤ c.size - sz) := by
  intro l
  induction l with
  | nil => intro i j f h; simp [find_block_best_fit_aux] at h
  | cons b bs ih =>
    intro i j f h
    by_cases hb : b.status = Status.free ∧ sz ≤ b.size
    · simp only [find_block_best_fit_aux, if_pos hb] at h
      rcases find_block_best_fit_aux_acc_spec sz bs (i + 1) i (b.size - sz) j f h with
        ⟨rfl, rfl, hall⟩ | ⟨l1, c, l2, rfl, hj, hc, hfc, hlt, hl1, hl2⟩
      · exact ⟨[], b, bs, by simp, by simp, hb, rfl, by simp, hall⟩
      · refine ⟨b :: l1, c, l2, rfl, by simp [hj]; omega, hc, hfc, ?_, hl2⟩
        intro d hd
        rcases List.mem_cons.mp hd with rfl | hd
        · intro _; omega
        · exact hl1 d hd
    · simp only [find_block_best_fit_aux, if_neg hb] at h
      rcases ih (i + 1) j f h with ⟨l1, c, l2, rfl, hj, hc, hfc, hl1, hl2⟩
      refine ⟨b :: l1, c, l2, rfl, by simp [hj]; omega, hc, hfc, ?_, hl2⟩
      intro d hd
      rcases List.mem_cons.mp hd with rfl | hd
      · exact fun he => absurd he hb
      · exact hl1 d hd

theorem find_block_best_fit_none_iff (mem : List Block) (sz : Int) :
    find_block_best_fit mem sz = none ↔ ∀ b ∈ mem, ¬ eligibleBlock sz b := by
  rw [find_block_best_fit, Option.map_eq_none']
  exact find_block_best_fit_aux_none_iff sz mem 0

theorem find_block_best_fit_some (mem : List Block) (sz : Int) (j : Nat)
    (h : find_block_best_fit mem sz = some j) :
    ∃ l1 b l2, mem = l1 ++ b :: l2 ∧ l1.length = j ∧ eligibleBlock sz b ∧
      (∀ c ∈ l1, eligibleBlock sz c → b.size - sz < c.size - sz) ∧
      (∀ c ∈ l2, eligibleBlock sz c → b.size - sz ≤ c.size - sz) := by
  rw [find_block_best_fit] at h
  rcases Option.map_eq_some'.mp h with ⟨⟨j', f⟩, hj, rfl⟩
  rcases find_block_best_fit_aux_start_spec sz mem 0 j' f hj with
    ⟨l1, b, l2, rfl, hlen, hb, hf, hl1, hl2⟩
  subst hf
  exact ⟨l1, b, l2, rfl, by omega, hb, hl1, hl2⟩

/-! ### List-splicing and chain utilities -/

theorem getElem_append_cons (l1 : List Block) (b : Block) (l2 : List Block) :
    (l1 ++ b :: l2)[l1.length]? = some b := by
  rw [List.getElem?_append_right (le_refl l1.length)]
  simp

theorem set_append_cons (l1 : List Block) (b c : Block) (l2 : List Block) :
    (l1 ++ b :: l2).set l1.length c = l1 ++ c :: l2 := by
  induction l1 with
  | nil => simp
  | cons x xs ih => simp [ih]

theorem take_append_cons (l1 : List Block) (b : Block) (l2 : List Block) :
    (l1 ++ b :: l2).take l1.length = l1 :=
  List.take_left' rfl

theorem drop_append_cons (l1 : List Block) (b : Block) (l2 : List Block) :
    (l1 ++ b :: l2).drop (l1.length + 1) = l2 := by
  have h : l1 ++ b :: l2 = (l1 ++ [b]) ++ l2 := by simp
  rw [h, List.drop_left']
  simp

theorem sumSizes_nil : sumSizes [] = 0 := rfl

theorem sumSizes_cons (b : Block) (l : List Block) :
    sumSizes (b :: l) = b.size + sumSizes l := by
  simp [sumSizes]

theorem sumSizes_append (l1 l2 : List Block) :
    sumSizes (l1 ++ l2) = sumSizes l1 + sumSizes l2 := by
  simp [sumSizes]


theorem chainFrom_nil (a : Int) : chainFrom a [] := trivial

theorem chainFrom_cons (a : Int) (b : Block) (bs : List Block) :
    chainFrom a (b :: bs) ↔ b.start = a ∧ chainFrom (a + b.size) bs := Iff.rfl

theorem chainFrom_append (l1 l2 : List Block) (a : Int) :
    chainFrom a (l1 ++ l2) ↔ chainFrom a l1 ∧ chainFrom (a + sumSizes l1) l2 := by
  induction l1 generalizing a with
  | nil =>
    simp only [List.nil_append, sumSizes_nil, add_zero]
    exact ⟨fun h => ⟨trivial, h⟩, fun h => h.2⟩
  | cons b bs ih =>
    rw [List.cons_append, chainFrom_cons, chainFrom_cons, ih (a + b.size),
      sumSizes_cons, and_assoc]
    have : a + b.size + sumSizes bs = a + (b.size + sumSizes bs) := by ring
    rw [this]

theorem chainFrom_strict_chain (l : List Block) :
    ∀ a, chainFrom a l → (∀ b ∈ l, 0 < b.size) →
      List.Chain' (fun x y => x.start < y.start) l := by
  induction l with
  | nil => intro a _ _; simp
  | cons b bs ih =>
    intro a h hpos
    rcases (chainFrom_cons a b bs).mp h with ⟨hstart, hrest⟩
    rw [List.chain'_cons']
    refine ⟨?_, ih (a + b.size) hrest (fun c hc => hpos c (List.mem_cons_of_mem b hc))⟩
    intro y hy
    cases bs with
    | nil => simp at hy
    | cons c cs =>
      simp only [List.head?_cons, Option.mem_def, Option.some.injEq] at hy
      rcases (chainFrom_cons _ c cs).mp hrest with ⟨hc, _⟩
      have hb := hpos b (List.mem_cons_self b (c :: cs))
      rw [← hy]
      omega

theorem sorted_startLe_of_chain_le (l : List Block)
    (h : List.Chain' (fun x y => x.start ≤ y.start) l) : List.Sorted startLe l := by
  haveI : IsTrans Block startLe := ⟨fun a b c h1 h2 => le_trans h1 h2⟩
  have h' : List.Chain' startLe l := h
  exact List.chain'_iff_pairwise.mp h'

/-! ### Properties of the coalescing scan -/

theorem coalesceAux_nil : coalesceAux [] = [] := rfl

theorem coalesceAux_cons_nil (b : Block) (bs : List Block) (hcb : coalesceAux bs = []) :
    coalesceAux (b :: bs) = [b] := by
  rw [coalesceAux, hcb]

theorem coalesceAux_cons_cons (b : Block) (bs : List Block) (c : Block) (cs : List Block)
    (hcb : coalesceAux bs = c :: cs) :
    coalesceAux (b :: bs) =
      if b.status = Status.free ∧ c.status = Status.free then
        ⟨b.start, b.size + c.size, b.status, b.pid⟩ :: cs
      else
        b :: c :: cs := by
  rw [coalesceAux, hcb]

theorem coalesceAux_cons_shape (b : Block) (bs : List Block) :
    ∃ s t, coalesceAux (b :: bs) = ⟨b.start, s, b.status, b.pid⟩ :: t := by
  rcases hcb : coalesceAux bs with _ | ⟨c, cs⟩
  · exact ⟨b.size, [], coalesceAux_cons_nil b bs hcb⟩
  · rw [coalesceAux_cons_cons b bs c cs hcb]
    by_cases hfree : b.status = Status.free ∧ c.status = Status.free
    · exact ⟨b.size + c.size, cs, by rw [if_pos hfree]⟩
    · exact ⟨b.size, c :: cs, by rw [if_neg hfree]⟩

theorem coalesceAux_noAdjFree (l : List Block) : noAdjFree (coalesceAux l) := by
  induction l with
  | nil => simp [coalesceAux_nil, noAdjFree]
  | cons b bs ih =>
    rcases hcb : coalesceAux bs with _ | ⟨c, cs⟩
    · rw [coalesceAux_cons_nil b bs hcb]
      simp [noAdjFree]
    · rw [hcb] at ih
      rw [noAdjFree, List.chain'_cons'] at ih
      rw [coalesceAux_cons_cons b bs c cs hcb]
      by_cases hfree : b.status = Status.free ∧ c.status = Status.free
      · rw [if_pos hfree]
        rw [noAdjFree, List.chain'_cons']
        refine ⟨?_, ih.2⟩
        intro y hy hcon
        exact (ih.1 y hy) ⟨hfree.2, hcon.2⟩
      · rw [if_neg hfree]
        rw [noAdjFree, List.chain'_cons']
        refine ⟨?_, ?_⟩
        · intro y hy
          simp only [List.head?_cons, Option.mem_def, Option.some.injEq] at hy
          rw [← hy]
          exact hfree
        · rw [List.chain'_cons']
          exact ih

theorem coalesceAux_chainFrom (l : List Block) :
    ∀ a, chainFrom a l → chainFrom a (coalesceAux l) := by
  induction l with
  | nil => intro a h; exact h
  | cons b bs ih =>
    intro a h
    rcases (chainFrom_cons a b bs).mp h with ⟨hb, hrest⟩
    have hres := ih (a + b.size) hrest
    rcases hcb : coalesceAux bs with _ | ⟨c, cs⟩
    · rw [coalesceAux_cons_nil b bs hcb]
      exact ⟨hb, trivial⟩
    · rw [hcb] at hres
      rcases (chainFrom_cons _ c cs).mp hres with ⟨hc, hcs⟩
      rw [coalesceAux_cons_cons b bs c cs hcb]
      by_cases hfree : b.status = Status.free ∧ c.status = Status.free
      · rw [if_pos hfree]
        refine ⟨hb, ?_⟩
        show chainFrom (a + (b.size + c.size)) cs
        have he : a + (b.size + c.size) = a + b.size + c.size := by ring
        rw [he]
        exact hcs
      · rw [if_neg hfree]
        exact ⟨hb, hc, hcs⟩

theorem coalesceAux_sumSizes (l : List Block) : sumSizes (coalesceAux l) = sumSizes l := by
  induction l with
  | nil => rfl
  | cons b bs ih =>
    rcases hcb : coalesceAux bs with _ | ⟨c, cs⟩
    · have h0 : sumSizes bs = 0 := by rw [← ih, hcb, sumSizes_nil]
      rw [coalesceAux_cons_nil b bs hcb, sumSizes_cons, sumSizes_cons, h0, sumSizes_nil]
    · rw [hcb] at ih
      rw [sumSizes_cons] at ih
      rw [coalesceAux_cons_cons b bs c cs hcb]
      by_cases hfree : b.status = Status.free ∧ c.status = Status.free
      · rw [if_pos hfree, sumSizes_cons, sumSizes_cons]
        show b.size + c.size + sumSizes cs = b.size + sumSizes bs
        omega
      · rw [if_neg hfree, sumSizes_cons, sumSizes_cons, sumSizes_cons]
        omega

theorem coalesceAux_sizesPos (l : List Block) :
    (∀ b ∈ l, 0 < b.size) → ∀ b ∈ coalesceAux l, 0 < b.size := by
  induction l with
  | nil => intro h; exact h
  | cons b bs ih =>
    intro hpos
    have hres := ih (fun d hd => hpos d (List.mem_cons_of_mem b hd))
    rcases hcb : coalesceAux bs with _ | ⟨c, cs⟩
    · rw [coalesceAux_cons_nil b bs hcb]
      intro d hd
      rcases List.mem_singleton.mp hd with rfl
      exact hpos d (by simp)
    · rw [hcb] at hres
      rw [coalesceAux_cons_cons b bs c cs hcb]
      by_cases hfree : b.status = Status.free ∧ c.status = Status.free
      · rw [if_pos hfree]
        intro d hd
        rcases List.mem_cons.mp hd with rfl | hd
        · have h1 := hpos b (by simp)
          have h2 := hres c (by simp)
          show (0 : Int) < b.size + c.size
          omega
        · exact hres d (by simp [hd])
      · rw [if_neg hfree]
        intro d hd
        rcases List.mem_cons.mp hd with rfl | hd
        · exact hpos d (by simp)
        · exact hres d hd

theorem coalesceAux_freeClear (l : List Block) :
    (∀ b ∈ l, b.status = Status.free → b.pid = none) →
      ∀ b ∈ coalesceAux l, b.status = Status.free → b.pid = none := by
  induction l with
  | nil => intro h; exact h
  | cons b bs ih =>
    intro hfc
    have hres := ih (fun d hd => hfc d (List.mem_cons_of_mem b hd))
    rcases hcb : coalesceAux bs with _ | ⟨c, cs⟩
    · rw [coalesceAux_cons_nil b bs hcb]
      intro d hd
      rcases List.mem_singleton.mp hd with rfl
      exact hfc d (by simp)
    · rw [hcb] at hres
      rw [coalesceAux_cons_cons b bs c cs hcb]
      by_cases hfree : b.status = Status.free ∧ c.status = Status.free
      · rw [if_pos hfree]
        intro d hd
        rcases List.mem_cons.mp hd with rfl | hd
        · intro _
          exact hfc b (by simp) hfree.1
        · exact hres d (by simp [hd])
      · rw [if_neg hfree]
        intro d hd
        rcases List.mem_cons.mp hd with rfl | hd
        · exact hfc d (by simp)
        · exact hres d hd

theorem countOwner_nil (q : Int) : countOwner [] q = 0 := rfl

theorem countOwner_cons (x : Block) (l : List Block) (q : Int) :
    countOwner (x :: l) q =
      countOwner l q + (if x.status = Status.occupied ∧ x.pid = some q then 1 else 0) := by
  simp [countOwner, List.countP_cons]

theorem countOwner_append (l1 l2 : List Block) (q : Int) :
    countOwner (l1 ++ l2) q = countOwner l1 q + countOwner l2 q := by
  simp [countOwner, List.countP_append]

theorem coalesceAux_countOwner (l : List Block) (p : Int) :
    countOwner (coalesceAux l) p = countOwner l p := by
  induction l with
  | nil => rfl
  | cons b bs ih =>
    rcases hcb : coalesceAux bs with _ | ⟨c, cs⟩
    · have h0 : countOwner bs p = 0 := by rw [← ih, hcb, countOwner_nil]
      rw [coalesceAux_cons_nil b bs hcb, countOwner_cons, countOwner_cons, h0, countOwner_nil]
    · rw [hcb] at ih
      rw [countOwner_cons] at ih
      rw [coalesceAux_cons_cons b bs c cs hcb]
      by_cases hfree : b.status = Status.free ∧ c.status = Status.free
      · have hm : ¬ ((⟨b.start, b.size + c.size, b.status, b.pid⟩ : Block).status =
            Status.occupied ∧
            (⟨b.start, b.size + c.size, b.status, b.pid⟩ : Block).pid = some p) := by
          intro hcon
          have hs : b.status = Status.occupied := hcon.1
          rw [hfree.1] at hs
          cases hs
        have hcn : ¬ (c.status = Status.occupied ∧ c.pid = some p) := by
          intro hcon
          have hs := hcon.1
          rw [hfree.2] at hs
          cases hs
        have hbn : ¬ (b.status = Status.occupied ∧ b.pid = some p) := by
          intro hcon
          have hs := hcon.1
          rw [hfree.1] at hs
          cases hs
        rw [if_neg hcn] at ih
        rw [if_pos hfree, countOwner_cons, countOwner_cons, if_neg hm]
        omega
      · rw [if_neg hfree, countOwner_cons, countOwner_cons, countOwner_cons, ih]

theorem coalesceAux_chain_le (l : List Block) :
    List.Chain' (fun x y => x.start ≤ y.start) l →
      List.Chain' (fun x y => x.start ≤ y.start) (coalesceAux l) := by
  induction l with
  | nil => intro h; exact h
  | cons b bs ih =>
    intro h
    rw [List.chain'_cons'] at h
    have hres := ih h.2
    rcases hcb : coalesceAux bs with _ | ⟨c, cs⟩
    · rw [coalesceAux_cons_nil b bs hcb]
      simp
    · rw [hcb] at hres
      have hbc : b.start ≤ c.start := by
        cases bs with
        | nil => rw [coalesceAux_nil] at hcb; cases hcb
        | cons x xs =>
          rcases coalesceAux_cons_shape x xs with ⟨s, t, hshape⟩
          rw [hshape] at hcb
          injection hcb with hc1 hc2
          rw [← hc1]
          exact h.1 x (by simp)
      rw [List.chain'_cons'] at hres
      rw [coalesceAux_cons_cons b bs c cs hcb]
      by_cases hfree : b.status = Status.free ∧ c.status = Status.free
      · rw [if_pos hfree, List.chain'_cons']
        refine ⟨?_, hres.2⟩
        intro y hy
        exact le_trans hbc (hres.1 y hy)
      · rw [if_neg hfree, List.chain'_cons']
        refine ⟨?_, ?_⟩
        · intro y hy
          simp only [List.head?_cons, Option.mem_def, Option.some.injEq] at hy
          rw [← hy]
          exact hbc
        · rw [List.chain'_cons']
          exact hres

theorem coalesceAux_of_noAdjFree (l : List Block) (h : noAdjFree l) : coalesceAux l = l := by
  induction l with
  | nil => rfl
  | cons b bs ih =>
    rw [noAdjFree, List.chain'_cons'] at h
    have hres : coalesceAux bs = bs := ih h.2
    cases bs with
    | nil => rw [coalesceAux_cons_nil b [] rfl]
    | cons c cs =>
      rw [coalesceAux_cons_cons b (c :: cs) c cs hres, if_neg (h.1 c (by simp))]

theorem coalesce_of_chain_le (l : List Block)
    (h : List.Chain' (fun x y => x.start ≤ y.start) l) :
    coalesce_free_blocks l = coalesceAux l := by
  rw [coalesce_free_blocks]
  exact List.Sorted.insertionSort_eq (sorted_startLe_of_chain_le _ (coalesceAux_chain_le l h))


/-! ### Unfolding equations for allocate and deallocate -/

theorem allocate_eq_of_nonpos (m : MemoryManager) (p sz : Int) (st : String)
    (hsz : sz ≤ 0) : allocate_memory m p sz st = (none, m) := by
  rw [allocate_memory, if_pos hsz]

theorem allocate_eq_of_bad_strategy (m : MemoryManager) (p sz : Int) (st : String)
    (hsz : ¬ sz ≤ 0) (hst : st ≠ "first_fit" ∧ st ≠ "best_fit") :
    allocate_memory m p sz st = (none, m) := by
  rw [allocate_memory, if_neg hsz, if_pos hst]

theorem allocate_eq_of_no_candidate (m : MemoryManager) (p sz : Int) (st : String)
    (hsz : ¬ sz ≤ 0) (hst : st = "first_fit" ∨ st = "best_fit")
    (hfind : (if st = "first_fit" then find_block_first_fit m.memory sz
              else find_block_best_fit m.memory sz) = none) :
    allocate_memory m p sz st = (none, m) := by
  rw [allocate_memory, if_neg hsz,
    if_neg (show ¬ (st ≠ "first_fit" ∧ st ≠ "best_fit") by
      rcases hst with rfl | rfl
      · simp
      · simp)]
  simp only [hfind]

theorem allocate_eq_of_exact (m : MemoryManager) (p sz : Int) (st : String)
    (i : Nat) (b : Block)
    (hsz : ¬ sz ≤ 0) (hst : st = "first_fit" ∨ st = "best_fit")
    (hfind : (if st = "first_fit" then find_block_first_fit m.memory sz
              else find_block_best_fit m.memory sz) = some i)
    (hb : m.memory[i]? = some b) (hex : b.size = sz) :
    allocate_memory m p sz st =
      (some b.start,
       ⟨m.total_memory_size,
        m.memory.set i ⟨b.start, b.size, Status.occupied, some p⟩⟩) := by
  rw [allocate_memory, if_neg hsz,
    if_neg (show ¬ (st ≠ "first_fit" ∧ st ≠ "best_fit") by
      rcases hst with rfl | rfl
      · simp
      · simp)]
  simp only [hfind, hb, if_pos hex]

theorem allocate_eq_of_split (m : MemoryManager) (p sz : Int) (st : String)
    (i : Nat) (b : Block)
    (hsz : ¬ sz ≤ 0) (hst : st = "first_fit" ∨ st = "best_fit")
    (hfind : (if st = "first_fit" then find_block_first_fit m.memory sz
              else find_block_best_fit m.memory sz) = some i)
    (hb : m.memory[i]? = some b) (hne : ¬ b.size = sz) :
    allocate_memory m p sz st =
      (some b.start,
       ⟨m.total_memory_size,
        m.memory.take i ++
          [⟨b.start, sz, Status.occupied, some p⟩,
           ⟨b.start + sz, b.size - sz, Status.free, none⟩] ++
          m.memory.drop (i + 1)⟩) := by
  rw [allocate_memory, if_neg hsz,
    if_neg (show ¬ (st ≠ "first_fit" ∧ st ≠ "best_fit") by
      rcases hst with rfl | rfl
      · simp
      · simp)]
  simp only [hfind, hb, if_neg hne]

theorem deallocate_eq_of_none (m : MemoryManager) (p : Int)
    (hf : find_occupied_index m.memory p = none) :
    deallocate_memory m p = (false, m) := by
  rw [deallocate_memory, hf]

theorem deallocate_eq_of_some (m : MemoryManager) (p : Int) (i : Nat) (b : Block)
    (hf : find_occupied_index m.memory p = some i) (hb : m.memory[i]? = some b) :
    deallocate_memory m p =
      (true,
       ⟨m.total_memory_size,
        coalesce_free_blocks (m.memory.set i ⟨b.start, b.size, Status.free, none⟩)⟩) := by
  rw [deallocate_memory, hf]
  simp only [hb]

theorem find_strategy_some_decomp (mem : List Block) (sz : Int) (st : String) (i : Nat)
    (hfind : (if st = "first_fit" then find_block_first_fit mem sz
              else find_block_best_fit mem sz) = some i) :
    ∃ l1 b l2, mem = l1 ++ b :: l2 ∧ l1.length = i ∧ eligibleBlock sz b := by
  by_cases hff : st = "first_fit"
  · rw [if_pos hff] at hfind
    rcases find_block_first_fit_some mem sz i hfind with ⟨l1, b, l2, hmem, hlen, helig, _⟩
    exact ⟨l1, b, l2, hmem, hlen, helig⟩
  · rw [if_neg hff] at hfind
    rcases find_block_best_fit_some mem sz i hfind with ⟨l1, b, l2, hmem, hlen, helig, _, _⟩
    exact ⟨l1, b, l2, hmem, hlen, helig⟩

theorem allocate_some_spec (m : MemoryManager) (p sz : Int) (st : String) (A : Int)
    (m' : MemoryManager) (h : allocate_memory m p sz st = (some A, m')) :
    ¬ sz ≤ 0 ∧ (st = "first_fit" ∨ st = "best_fit") ∧
    ∃ l1 b l2, m.memory = l1 ++ b :: l2 ∧ eligibleBlock sz b ∧ A = b.start ∧
      m'.total_memory_size = m.total_memory_size ∧
      ((b.size = sz ∧
          m'.memory = l1 ++ ⟨b.start, b.size, Status.occupied, some p⟩ :: l2) ∨
       (sz < b.size ∧
          m'.memory = l1 ++ ⟨b.start, sz, Status.occupied, some p⟩ ::
            ⟨b.start + sz, b.size - sz, Status.free, none⟩ :: l2)) := by
  by_cases hsz : sz ≤ 0
  · rw [allocate_eq_of_nonpos m p sz st hsz] at h
    cases h
  by_cases hst : st = "first_fit" ∨ st = "best_fit"
  · refine ⟨hsz, hst, ?_⟩
    rcases hcand : (if st = "first_fit" then find_block_first_fit m.memory sz
                    else find_block_best_fit m.memory sz) with _ | i
    · rw [allocate_eq_of_no_candidate m p sz st hsz hst hcand] at h
      cases h
    · rcases find_strategy_some_decomp m.memory sz st i hcand with ⟨l1, b, l2, hmem, hlen, helig⟩
      have hb : m.memory[i]? = some b := by
        rw [hmem, ← hlen]
        exact getElem_append_cons l1 b l2
      by_cases hex : b.size = sz
      · rw [allocate_eq_of_exact m p sz st i b hsz hst hcand hb hex] at h
        refine ⟨l1, b, l2, hmem, helig, ?_, ?_, Or.inl ⟨hex, ?_⟩⟩
        · have := congrArg Prod.fst h
          simpa using this.symm
        · have := congrArg (fun q => q.2.total_memory_size) h
          simpa using this.symm
        · have h2 := congrArg (fun q => q.2.memory) h
          simp only [] at h2
          rw [← h2, hmem, ← hlen, set_append_cons]
      · rw [allocate_eq_of_split m p sz st i b hsz hst hcand hb hex] at h
        refine ⟨l1, b, l2, hmem, helig, ?_, ?_, Or.inr ⟨lt_of_le_of_ne helig.2 (fun he => hex he.symm), ?_⟩⟩
        · have := congrArg Prod.fst h
          simpa using this.symm
        · have := congrArg (fun q => q.2.total_memory_size) h
          simpa using this.symm
        · have h2 := congrArg (fun q => q.2.memory) h
          simp only [] at h2
          rw [← h2, hmem, ← hlen, take_append_cons, drop_append_cons]
          simp
  · rw [allocate_eq_of_bad_strategy m p sz st hsz (by push_neg at hst; exact hst)] at h
    cases h

theorem allocate_none_state (m : MemoryManager) (p sz : Int) (st : String)
    (h : (allocate_memory m p sz st).1 = none) : (allocate_memory m p sz st).2 = m := by
  by_cases hsz : sz ≤ 0
  · rw [allocate_eq_of_nonpos m p sz st hsz]
  by_cases hst : st = "first_fit" ∨ st = "best_fit"
  · rcases hcand : (if st = "first_fit" then find_block_first_fit m.memory sz
                    else find_block_best_fit m.memory sz) with _ | i
    · rw [allocate_eq_of_no_candidate m p sz st hsz hst hcand]
    · rcases find_strategy_some_decomp m.memory sz st i hcand with ⟨l1, b, l2, hmem, hlen, _⟩
      have hb : m.memory[i]? = some b := by
        rw [hmem, ← hlen]
        exact getElem_append_cons l1 b l2
      by_cases hex : b.size = sz
      · rw [allocate_eq_of_exact m p sz st i b hsz hst hcand hb hex] at h
        cases h
      · rw [allocate_eq_of_split m p sz st i b hsz hst hcand hb hex] at h
        cases h
  · rw [allocate_eq_of_bad_strategy m p sz st hsz (by push_neg at hst; exact hst)]

theorem allocate_isSome_iff (m : MemoryManager) (p sz : Int) (st : String) :
    (allocate_memory m p sz st).1.isSome ↔
      ¬ sz ≤ 0 ∧ (st = "first_fit" ∨ st = "best_fit") ∧
        ∃ b ∈ m.memory, eligibleBlock sz b := by
  constructor
  · intro h
    rcases Option.isSome_iff_exists.mp h with ⟨A, hA⟩
    have hpair : allocate_memory m p sz st = (some A, (allocate_memory m p sz st).2) := by
      rw [← hA]
    rcases allocate_some_spec m p sz st A _ hpair with ⟨hsz, hst, l1, b, l2, hmem, helig, _⟩
    exact ⟨hsz, hst, b, by simp [hmem], helig⟩
  · rintro ⟨hsz, hst, b, hbmem, helig⟩
    rcases hcand : (if st = "first_fit" then find_block_first_fit m.memory sz
                    else find_block_best_fit m.memory sz) with _ | i
    · exfalso
      by_cases hff : st = "first_fit"
      · rw [if_pos hff] at hcand
        exact (find_block_first_fit_none_iff m.memory sz).mp hcand b hbmem helig
      · rw [if_neg hff] at hcand
        exact (find_block_best_fit_none_iff m.memory sz).mp hcand b hbmem helig
    · rcases find_strategy_some_decomp m.memory sz st i hcand with ⟨l1, c, l2, hmem, hlen, _⟩
      have hc : m.memory[i]? = some c := by
        rw [hmem, ← hlen]
        exact getElem_append_cons l1 c l2
      by_cases hex : c.size = sz
      · rw [allocate_eq_of_exact m p sz st i c hsz hst hcand hc hex]
        simp
      · rw [allocate_eq_of_split m p sz st i c hsz hst hcand hc hex]
        simp

theorem MgrInv_allocate (m : MemoryManager) (p sz : Int) (st : String) (h : MgrInv m) :
    MgrInv (allocate_memory m p sz st).2 := by
  rcases hres : (allocate_memory m p sz st).1 with _ | A
  · rw [allocate_none_state m p sz st hres]
    exact h
  · have hpair : allocate_memory m p sz st = (some A, (allocate_memory m p sz st).2) := by
      rw [← hres]
    rcases allocate_some_spec m p sz st A _ hpair with
      ⟨hsz, hst, l1, b, l2, hmem, helig, hA, htot, hcase⟩
    rcases h with ⟨h1, h2, h3, h4, h5⟩
    rw [hmem] at h1 h2 h3 h4 h5
    rw [chainFrom_append] at h1
    rcases h1 with ⟨h11, h12⟩
    rcases (chainFrom_cons _ b l2).mp h12 with ⟨hbst, h13⟩
    rw [noAdjFree, List.chain'_append] at h4
    rcases h4 with ⟨h41, h42, h43⟩
    rw [List.chain'_cons'] at h42
    rcases h42 with ⟨h42h, h42t⟩
    rcases hcase with ⟨hex, hmem'⟩ | ⟨hlt, hmem'⟩
    · refine ⟨?_, ?_, ?_, ?_, ?_⟩
      · rw [hmem', chainFrom_append, chainFrom_cons]
        exact ⟨h11, hbst, h13⟩
      · rw [hmem']
        intro d hd
        rcases List.mem_append.mp hd with hd | hd
        · exact h2 d (List.mem_append.mpr (Or.inl hd))
        · rcases List.mem_cons.mp hd with rfl | hd
          · exact h2 b (by simp)
          · exact h2 d (by simp [hd])
      · rw [hmem', htot, ← h3, sumSizes_append, sumSizes_append, sumSizes_cons, sumSizes_cons]
      · rw [hmem', noAdjFree, List.chain'_append, List.chain'_cons']
        refine ⟨h41, ⟨?_, h42t⟩, ?_⟩
        · intro y _ hcon
          simp at hcon
        · intro x hx y hy
          simp only [List.head?_cons, Option.mem_def, Option.some.injEq] at hy
          rw [← hy]
          intro hcon
          simp at hcon
      · rw [hmem']
        intro d hd hdf
        rcases List.mem_append.mp hd with hd | hd
        · exact h5 d (List.mem_append.mpr (Or.inl hd)) hdf
        · rcases List.mem_cons.mp hd with rfl | hd
          · simp at hdf
          · exact h5 d (by simp [hd]) hdf
    · refine ⟨?_, ?_, ?_, ?_, ?_⟩
      · rw [hmem', chainFrom_append, chainFrom_cons, chainFrom_cons]
        refine ⟨h11, hbst, ?_, ?_⟩
        · show b.start + sz = 0 + sumSizes l1 + sz
          rw [hbst]
        · show chainFrom (0 + sumSizes l1 + sz + (b.size - sz)) l2
          have he : 0 + sumSizes l1 + sz + (b.size - sz) = 0 + sumSizes l1 + b.size := by ring
          rw [he]
          exact h13
      · rw [hmem']
        intro d hd
        rcases List.mem_append.mp hd with hd | hd
        · exact h2 d (List.mem_append.mpr (Or.inl hd))
        · rcases List.mem_cons.mp hd with rfl | hd
          · show (0 : Int) < sz
            omega
          · rcases List.mem_cons.mp hd with rfl | hd
            · show (0 : Int) < b.size - sz
              omega
            · exact h2 d (by simp [hd])
      · rw [hmem', htot, ← h3, sumSizes_append, sumSizes_append, sumSizes_cons,
          sumSizes_cons, sumSizes_cons]
        show sumSizes l1 + (sz + (b.size - sz + sumSizes l2)) =
          sumSizes l1 + (b.size + sumSizes l2)
        ring
      · rw [hmem', noAdjFree, List.chain'_append, List.chain'_cons', List.chain'_cons']
        refine ⟨h41, ⟨?_, ?_, h42t⟩, ?_⟩
        · intro y _ hcon
          simp at hcon
        · intro y hy hcon
          exact (h42h y hy) ⟨helig.1, hcon.2⟩
        · intro x hx y hy
          simp only [List.head?_cons, Option.mem_def, Option.some.injEq] at hy
          rw [← hy]
          intro hcon
          simp at hcon
      · rw [hmem']
        intro d hd hdf
        rcases List.mem_append.mp hd with hd | hd
        · exact h5 d (List.mem_append.mpr (Or.inl hd)) hdf
        · rcases List.mem_cons.mp hd with rfl | hd
          · simp at hdf
          · rcases List.mem_cons.mp hd with rfl | hd
            · rfl
            · exact h5 d (by simp [hd]) hdf

theorem MgrInv_deallocate (m : MemoryManager) (p : Int) (h : MgrInv m) :
    MgrInv (deallocate_memory m p).2 := by
  rcases hf : find_occupied_index m.memory p with _ | i
  · rw [deallocate_eq_of_none m p hf]
    exact h
  · rcases find_occupied_index_some m.memory p i hf with ⟨l1, b, l2, hmem, hlen, hocc, hpid, _⟩
    have hb : m.memory[i]? = some b := by
      rw [hmem, ← hlen]
      exact getElem_append_cons l1 b l2
    rw [deallocate_eq_of_some m p i b hf hb]
    have hset : m.memory.set i ⟨b.start, b.size, Status.free, none⟩ =
        l1 ++ ⟨b.start, b.size, Status.free, none⟩ :: l2 := by
      rw [hmem, ← hlen, set_append_cons]
    rcases h with ⟨h1, h2, h3, h4, h5⟩
    rw [hmem] at h1 h2 h3 h5
    rw [chainFrom_append] at h1
    rcases h1 with ⟨h11, h12⟩
    rcases (chainFrom_cons _ b l2).mp h12 with ⟨hbst, h13⟩
    have hcf : chainFrom 0 (l1 ++ ⟨b.start, b.size, Status.free, none⟩ :: l2) := by
      rw [chainFrom_append, chainFrom_cons]
      exact ⟨h11, hbst, h13⟩
    have hpos : ∀ d ∈ l1 ++ ⟨b.start, b.size, Status.free, none⟩ :: l2, 0 < d.size := by
      intro d hd
      rcases List.mem_append.mp hd with hd | hd
      · exact h2 d (List.mem_append.mpr (Or.inl hd))
      · rcases List.mem_cons.mp hd with rfl | hd
        · exact h2 b (by simp)
        · exact h2 d (by simp [hd])
    have hsum : sumSizes (l1 ++ ⟨b.start, b.size, Status.free, none⟩ :: l2) =
        m.total_memory_size := by
      rw [← h3, sumSizes_append, sumSizes_append, sumSizes_cons, sumSizes_cons]
    have hfc : ∀ d ∈ l1 ++ ⟨b.start, b.size, Status.free, none⟩ :: l2,
        d.status = Status.free → d.pid = none := by
      intro d hd hdf
      rcases List.mem_append.mp hd with hd | hd
      · exact h5 d (List.mem_append.mpr (Or.inl hd)) hdf
      · rcases List.mem_cons.mp hd with rfl | hd
        · rfl
        · exact h5 d (by simp [hd]) hdf
    have hchain : List.Chain' (fun x y => x.start ≤ y.start)
        (l1 ++ ⟨b.start, b.size, Status.free, none⟩ :: l2) :=
      (chainFrom_strict_chain _ 0 hcf hpos).imp (fun a b hab => le_of_lt hab)
    rw [hset, coalesce_of_chain_le _ hchain]
    exact ⟨coalesceAux_chainFrom _ 0 hcf, coalesceAux_sizesPos _ hpos,
      by rw [coalesceAux_sumSizes]; exact hsum,
      coalesceAux_noAdjFree _, coalesceAux_freeClear _ hfc⟩

theorem MgrInv_applyOp (m : MemoryManager) (op : Op) (h : MgrInv m) : MgrInv (applyOp m op) := by
  cases op with
  | alloc p s st => exact MgrInv_allocate m p s st h
  | dealloc p => exact MgrInv_deallocate m p h

theorem MgrInv_run (m : MemoryManager) (ops : List Op) (h : MgrInv m) : MgrInv (run m ops) := by
  induction ops generalizing m with
  | nil => exact h
  | cons op ops ih => exact ih (applyOp m op) (MgrInv_applyOp m op h)

theorem total_applyOp (m : MemoryManager) (op : Op) :
    (applyOp m op).total_memory_size = m.total_memory_size := by
  cases op with
  | alloc p s st =>
    show (allocate_memory m p s st).2.total_memory_size = m.total_memory_size
    rcases hres : (allocate_memory m p s st).1 with _ | A
    · rw [allocate_none_state m p s st hres]
    · have hpair : allocate_memory m p s st = (some A, (allocate_memory m p s st).2) := by
        rw [← hres]
      rcases allocate_some_spec m p s st A _ hpair with ⟨_, _, _, _, _, _, _, _, htot, _⟩
      exact htot
  | dealloc p =>
    show (deallocate_memory m p).2.total_memory_size = m.total_memory_size
    rcases hf : find_occupied_index m.memory p with _ | i
    · rw [deallocate_eq_of_none m p hf]
    · rcases find_occupied_index_some m.memory p i hf with ⟨l1, b, l2, hmem, hlen, _, _, _⟩
      have hb : m.memory[i]? = some b := by
        rw [hmem, ← hlen]
        exact getElem_append_cons l1 b l2
      rw [deallocate_eq_of_some m p i b hf hb]

theorem total_run (m : MemoryManager) (ops : List Op) :
    (run m ops).total_memory_size = m.total_memory_size := by
  induction ops generalizing m with
  | nil => rfl
  | cons op ops ih => rw [run, ih, total_applyOp]

theorem MgrInv_init (total : Int) (m : MemoryManager) (h : MemoryManager.init total = some m) :
    MgrInv m ∧ m.total_memory_size = total ∧ 0 < total := by
  rw [MemoryManager.init] at h
  by_cases htot : total ≤ 0
  · rw [if_pos htot] at h
    cases h
  · rw [if_neg htot] at h
    injection h with h
    subst h
    refine ⟨⟨?_, ?_, ?_, ?_, ?_⟩, rfl, by omega⟩
    · exact ⟨rfl, trivial⟩
    · intro d hd
      rcases List.mem_singleton.mp hd with rfl
      show (0 : Int) < total
      omega
    · simp [sumSizes]
    · simp [noAdjFree]
    · intro d hd _
      rcases List.mem_singleton.mp hd with rfl
      rfl

/-! ### Ownership counting -/

theorem coalesce_countOwner (l : List Block) (q : Int) :
    countOwner (coalesce_free_blocks l) q = countOwner l q := by
  have hperm := List.perm_insertionSort startLe (coalesceAux l)
  have h1 : countOwner (coalesce_free_blocks l) q = countOwner (coalesceAux l) q := by
    rw [coalesce_free_blocks, countOwner, countOwner]
    exact hperm.countP_eq _
  rw [h1, coalesceAux_countOwner]

theorem countOwner_allocate (m : MemoryManager) (p sz : Int) (st : String) (q : Int) :
    countOwner (allocate_memory m p sz st).2.memory q ≤
      countOwner m.memory q + (if q = p then 1 else 0) := by
  rcases hres : (allocate_memory m p sz st).1 with _ | A
  · rw [allocate_none_state m p sz st hres]
    exact Nat.le_add_right _ _
  · have hpair : allocate_memory m p sz st = (some A, (allocate_memory m p sz st).2) := by
      rw [← hres]
    rcases allocate_some_spec m p sz st A _ hpair with
      ⟨hsz, hst, l1, b, l2, hmem, helig, hA, htot, hcase⟩
    have hbfree : ¬ (b.status = Status.occupied ∧ b.pid = some q) := by
      rw [helig.1]
      simp
    rcases hcase with ⟨hex, hmem'⟩ | ⟨hlt, hmem'⟩
    · rw [hmem', hmem, countOwner_append, countOwner_append, countOwner_cons,
        countOwner_cons, if_neg hbfree]
      by_cases hq : q = p
      · subst hq
        simp
        omega
      · have hocc : ¬ ((⟨b.start, b.size, Status.occupied, some p⟩ : Block).status =
            Status.occupied ∧
            (⟨b.start, b.size, Status.occupied, some p⟩ : Block).pid = some q) := by
          simp
          intro hqp
          exact absurd hqp.symm hq
        rw [if_neg hocc]
        simp
    · rw [hmem', hmem, countOwner_append, countOwner_append, countOwner_cons,
        countOwner_cons, countOwner_cons, if_neg hbfree]
      have h2 : ¬ ((⟨b.start + sz, b.size - sz, Status.free, none⟩ : Block).status =
          Status.occupied ∧
          (⟨b.start + sz, b.size - sz, Status.free, none⟩ : Block).pid = some q) := by
        simp
      rw [if_neg h2]
      by_cases hq : q = p
      · subst hq
        simp
        omega
      · have h1 : ¬ ((⟨b.start, sz, Status.occupied, some p⟩ : Block).status =
            Status.occupied ∧
            (⟨b.start, sz, Status.occupied, some p⟩ : Block).pid = some q) := by
          simp
          intro hqp
          exact absurd hqp.symm hq
        rw [if_neg h1]
        simp

theorem countOwner_deallocate (m : MemoryManager) (p q : Int) :
    countOwner (deallocate_memory m p).2.memory q ≤ countOwner m.memory q := by
  rcases hf : find_occupied_index m.memory p with _ | i
  · rw [deallocate_eq_of_none m p hf]
  · rcases find_occupied_index_some m.memory p i hf with ⟨l1, b, l2, hmem, hlen, _, _, _⟩
    have hb : m.memory[i]? = some b := by
      rw [hmem, ← hlen]
      exact getElem_append_cons l1 b l2
    rw [deallocate_eq_of_some m p i b hf hb]
    have hset : m.memory.set i ⟨b.start, b.size, Status.free, none⟩ =
        l1 ++ ⟨b.start, b.size, Status.free, none⟩ :: l2 := by
      rw [hmem, ← hlen, set_append_cons]
    show countOwner (coalesce_free_blocks
      (m.memory.set i ⟨b.start, b.size, Status.free, none⟩)) q ≤ countOwner m.memory q
    rw [coalesce_countOwner, hset, hmem, countOwner_append, countOwner_append,
      countOwner_cons, countOwner_cons]
    have hfr : ¬ ((⟨b.start, b.size, Status.free, none⟩ : Block).status = Status.occupied ∧
        (⟨b.start, b.size, Status.free, none⟩ : Block).pid = some q) := by
      simp
    rw [if_neg hfr]
    omega

theorem countOwner_le_one_run (ops : List Op) :
    ∀ m : MemoryManager, (∀ q, countOwner m.memory q ≤ 1) → FreshAllocs m ops →
      ∀ q, countOwner (run m ops).memory q ≤ 1 := by
  induction ops with
  | nil => intro m h _ q; exact h q
  | cons op ops ih =>
    intro m h hfresh q
    cases op with
    | alloc p s st =>
      rcases hfresh with ⟨hzero, hfresh⟩
      refine ih (applyOp m (Op.alloc p s st)) ?_ hfresh q
      intro r
      have hle := countOwner_allocate m p s st r
      by_cases hr : r = p
      · subst hr
        rw [hzero] at hle
        simpa using hle
      · rw [if_neg hr] at hle
        exact le_trans hle (by simpa using h r)
    | dealloc p =>
      refine ih (applyOp m (Op.dealloc p)) ?_ hfresh q
      intro r
      exact le_trans (countOwner_deallocate m p r) (h r)

/-! ### Claim theorems -/

theorem start_lt_of_sorted_append (l1 : List Block) (b : Block) (l2 : List Block)
    (h : List.Chain' (fun x y => x.start < y.start) (l1 ++ b :: l2)) :
    ∀ c ∈ l2, b.start < c.start := by
  haveI : IsTrans Block (fun x y : Block => x.start < y.start) :=
    ⟨fun a b c h1 h2 => lt_trans h1 h2⟩
  have hp := List.chain'_iff_pairwise.mp h
  have hp2 := (List.pairwise_append.mp hp).2.1
  exact (List.pairwise_cons.mp hp2).1

/-- C5: `allocate_memory` fails (returns no address) exactly when the
requested size is not positive, the strategy is unknown, or no free block of
sufficient size exists; and every failure leaves the block list unchanged. -/
theorem c5_allocate_failure (m : MemoryManager) (p sz : Int) (st : String) :
    ((allocate_memory m p sz st).1 = none ↔
      sz ≤ 0 ∨ (st ≠ "first_fit" ∧ st ≠ "best_fit") ∨
        ∀ b ∈ m.memory, ¬ eligibleBlock sz b) ∧
    ((allocate_memory m p sz st).1 = none → (allocate_memory m p sz st).2 = m) := by
  refine ⟨?_, allocate_none_state m p sz st⟩
  rw [← Option.not_isSome_iff_eq_none, allocate_isSome_iff]
  constructor
  · intro h
    by_cases hsz : sz ≤ 0
    · exact Or.inl hsz
    by_cases hst : st = "first_fit" ∨ st = "best_fit"
    · refine Or.inr (Or.inr ?_)
      intro b hb he
      exact h ⟨hsz, hst, b, hb, he⟩
    · exact Or.inr (Or.inl (by push_neg at hst; exact hst))
  · rintro (hsz | hst | hall) ⟨h1, h2, b, hb, he⟩
    · exact h1 hsz
    · rcases h2 with rfl | rfl
      · exact hst.1 rfl
      · exact hst.2 rfl
    · exact hall b hb he

/-- C10: with a positive request, allocation under `first_fit` succeeds
exactly when allocation under `best_fit` succeeds, and both succeed exactly
when some free block is large enough. -/
theorem c10_strategy_failure_agreement (m : MemoryManager) (p1 p2 sz : Int)
    (hsz : 0 < sz) :
    ((allocate_memory m p1 sz "first_fit").1.isSome ↔
      (allocate_memory m p2 sz "best_fit").1.isSome) ∧
    ((allocate_memory m p1 sz "first_fit").1.isSome ↔
      ∃ b ∈ m.memory, eligibleBlock sz b) ∧
    ((allocate_memory m p2 sz "best_fit").1.isSome ↔
      ∃ b ∈ m.memory, eligibleBlock sz b) := by
  have hsz' : ¬ sz ≤ 0 := by omega
  have hff : (allocate_memory m p1 sz "first_fit").1.isSome ↔
      ∃ b ∈ m.memory, eligibleBlock sz b := by
    rw [allocate_isSome_iff]
    constructor
    · rintro ⟨_, _, h⟩
      exact h
    · intro h
      exact ⟨hsz', Or.inl rfl, h⟩
  have hbf : (allocate_memory m p2 sz "best_fit").1.isSome ↔
      ∃ b ∈ m.memory, eligibleBlock sz b := by
    rw [allocate_isSome_iff]
    constructor
    · rintro ⟨_, _, h⟩
      exact h
    · intro h
      exact ⟨hsz', Or.inr rfl, h⟩
  exact ⟨hff.trans hbf.symm, hff, hbf⟩

/-- C10 witness at a concrete state and size. -/
theorem c10_witness :
    (((allocate_memory ⟨100, [⟨0, 40, Status.occupied, some 1⟩, ⟨40, 60, Status.free, none⟩]⟩
        2 50 "first_fit").1.isSome ↔
      (allocate_memory ⟨100, [⟨0, 40, Status.occupied, some 1⟩, ⟨40, 60, Status.free, none⟩]⟩
        3 50 "best_fit").1.isSome) ∧
    ((allocate_memory ⟨100, [⟨0, 40, Status.occupied, some 1⟩, ⟨40, 60, Status.free, none⟩]⟩
        2 50 "first_fit").1.isSome ↔
      ∃ b ∈ (⟨100, [⟨0, 40, Status.occupied, some 1⟩, ⟨40, 60, Status.free, none⟩]⟩ :
          MemoryManager).memory, eligibleBlock 50 b) ∧
    ((allocate_memory ⟨100, [⟨0, 40, Status.occupied, some 1⟩, ⟨40, 60, Status.free, none⟩]⟩
        3 50 "best_fit").1.isSome ↔
      ∃ b ∈ (⟨100, [⟨0, 40, Status.occupied, some 1⟩, ⟨40, 60, Status.free, none⟩]⟩ :
          MemoryManager).memory, eligibleBlock 50 b)) :=
  c10_strategy_failure_agreement
    ⟨100, [⟨0, 40, Status.occupied, some 1⟩, ⟨40, 60, Status.free, none⟩]⟩ 2 3 50 (by decide)

/-- C9 counterexample: on an unsorted block list the final re-sort can make
two free blocks adjacent, so a second coalescing pass merges further and the
claim fails as stated for arbitrary block lists. -/
theorem c9_counterexample :
    coalesce_free_blocks (coalesce_free_blocks
      [⟨5, 1, Status.free, none⟩, ⟨0, 1, Status.occupied, some 1⟩,
       ⟨2, 1, Status.free, none⟩]) ≠
    coalesce_free_blocks
      [⟨5, 1, Status.free, none⟩, ⟨0, 1, Status.occupied, some 1⟩,
       ⟨2, 1, Status.free, none⟩] := by
  decide

/-- C9 (amended): on every block list already sorted by ascending start —
which includes every list the manager ever holds — coalescing twice gives
the same list as coalescing once. -/
theorem c9_coalesce_idempotent (mem : List Block)
    (hs : List.Chain' (fun x y => x.start ≤ y.start) mem) :
    coalesce_free_blocks (coalesce_free_blocks mem) = coalesce_free_blocks mem := by
  have h1 : coalesce_free_blocks mem = coalesceAux mem := coalesce_of_chain_le mem hs
  have h2 : List.Chain' (fun x y => x.start ≤ y.start) (coalesceAux mem) :=
    coalesceAux_chain_le mem hs
  rw [h1, coalesce_of_chain_le _ h2, coalesceAux_of_noAdjFree _ (coalesceAux_noAdjFree mem)]

/-- C9 witness at a concrete sorted state. -/
theorem c9_witness :
    coalesce_free_blocks (coalesce_free_blocks
      [⟨0, 10, Status.occupied, some 1⟩, ⟨10, 5, Status.free, none⟩,
       ⟨15, 5, Status.free, none⟩]) =
    coalesce_free_blocks
      [⟨0, 10, Status.occupied, some 1⟩, ⟨10, 5, Status.free, none⟩,
       ⟨15, 5, Status.free, none⟩] :=
  c9_coalesce_idempotent
    [⟨0, 10, Status.occupied, some 1⟩, ⟨10, 5, Status.free, none⟩,
     ⟨15, 5, Status.free, none⟩] (by simp [List.chain'_cons])


/-- C2: with a positive request on a start-sorted block list, best-fit
selects an eligible free block with minimum leftover `size - size_required`,
breaking ties by earliest start, and `allocate_memory` with `best_fit`
returns that block's start. -/
theorem c2_best_fit_selection (m : MemoryManager) (p sz : Int) (j : Nat)
    (hsz : 0 < sz)
    (hsorted : List.Chain' (fun x y => x.start < y.start) m.memory)
    (hfind : find_block_best_fit m.memory sz = some j) :
    ∃ b, m.memory[j]? = some b ∧ eligibleBlock sz b ∧
      (∀ c ∈ m.memory, eligibleBlock sz c → b.size - sz ≤ c.size - sz) ∧
      (∀ c ∈ m.memory, eligibleBlock sz c → c.size - sz = b.size - sz → b.start ≤ c.start) ∧
      (allocate_memory m p sz "best_fit").1 = some b.start := by
  rcases find_block_best_fit_some m.memory sz j hfind with
    ⟨l1, b, l2, hmem, hlen, helig, hl1, hl2⟩
  have hb : m.memory[j]? = some b := by
    rw [hmem, ← hlen]
    exact getElem_append_cons l1 b l2
  refine ⟨b, hb, helig, ?_, ?_, ?_⟩
  · intro c hc he
    rw [hmem] at hc
    rcases List.mem_append.mp hc with hc | hc
    · exact le_of_lt (hl1 c hc he)
    · rcases List.mem_cons.mp hc with rfl | hc
      · exact le_refl _
      · exact hl2 c hc he
  · intro c hc he htie
    rw [hmem] at hc
    rcases List.mem_append.mp hc with hc | hc
    · exfalso
      have := hl1 c hc he
      omega
    · rcases List.mem_cons.mp hc with rfl | hc
      · exact le_refl _
      · rw [hmem] at hsorted
        exact le_of_lt (start_lt_of_sorted_append l1 b l2 hsorted c hc)
  · have hsz2 : ¬ sz ≤ 0 := by omega
    have hst : ("best_fit" : String) = "first_fit" ∨ ("best_fit" : String) = "best_fit" :=
      Or.inr rfl
    have hcand : (if ("best_fit" : String) = "first_fit" then
        find_block_first_fit m.memory sz else find_block_best_fit m.memory sz) = some j := by
      rw [if_neg (by decide)]
      exact hfind
    by_cases hex : b.size = sz
    · rw [allocate_eq_of_exact m p sz "best_fit" j b hsz2 hst hcand hb hex]
    · rw [allocate_eq_of_split m p sz "best_fit" j b hsz2 hst hcand hb hex]

/-- C2 witness: scenario with free sizes 50, 20, 80 and request 15 — the
size-20 block at index 2 is selected. -/
theorem c2_witness :
    (∃ b, (⟨165, [⟨0, 50, Status.free, none⟩, ⟨50, 10, Status.occupied, some 9⟩, ⟨60, 20, Status.free, none⟩, ⟨80, 5, Status.occupied, some 8⟩, ⟨85, 80, Status.free, none⟩]⟩ : MemoryManager).memory[2]? = some b ∧ eligibleBlock 15 b ∧
      (∀ c ∈ (⟨165, [⟨0, 50, Status.free, none⟩, ⟨50, 10, Status.occupied, some 9⟩, ⟨60, 20, Status.free, none⟩, ⟨80, 5, Status.occupied, some 8⟩, ⟨85, 80, Status.free, none⟩]⟩ : MemoryManager).memory, eligibleBlock 15 c → b.size - 15 ≤ c.size - 15) ∧
      (∀ c ∈ (⟨165, [⟨0, 50, Status.free, none⟩, ⟨50, 10, Status.occupied, some 9⟩, ⟨60, 20, Status.free, none⟩, ⟨80, 5, Status.occupied, some 8⟩, ⟨85, 80, Status.free, none⟩]⟩ : MemoryManager).memory, eligibleBlock 15 c → c.size - 15 = b.size - 15 → b.start ≤ c.start) ∧
      (allocate_memory (⟨165, [⟨0, 50, Status.free, none⟩, ⟨50, 10, Status.occupied, some 9⟩, ⟨60, 20, Status.free, none⟩, ⟨80, 5, Status.occupied, some 8⟩, ⟨85, 80, Status.free, none⟩]⟩ : MemoryManager) 7 15 "best_fit").1 = some b.start) ∧
    find_block_best_fit (⟨165, [⟨0, 50, Status.free, none⟩, ⟨50, 10, Status.occupied, some 9⟩, ⟨60, 20, Status.free, none⟩, ⟨80, 5, Status.occupied, some 8⟩, ⟨85, 80, Status.free, none⟩]⟩ : MemoryManager).memory 15 = some 2 ∧
    (⟨165, [⟨0, 50, Status.free, none⟩, ⟨50, 10, Status.occupied, some 9⟩, ⟨60, 20, Status.free, none⟩, ⟨80, 5, Status.occupied, some 8⟩, ⟨85, 80, Status.free, none⟩]⟩ : MemoryManager).memory[2]? = some ⟨60, 20, Status.free, none⟩ :=
  ⟨c2_best_fit_selection (⟨165, [⟨0, 50, Status.free, none⟩, ⟨50, 10, Status.occupied, some 9⟩, ⟨60, 20, Status.free, none⟩, ⟨80, 5, Status.occupied, some 8⟩, ⟨85, 80, Status.free, none⟩]⟩ : MemoryManager) 7 15 2 (by decide) (by simp [List.chain'_cons]) (by decide),
   by decide, by decide⟩

/-- C8: with a positive request on a start-sorted block list, first-fit
selects the first eligible free block in list order — equivalently the
eligible block of least start — and `allocate_memory` with `first_fit`
returns its start. -/
theorem c8_first_fit_selection (m : MemoryManager) (p sz : Int) (j : Nat)
    (hsz : 0 < sz)
    (hsorted : List.Chain' (fun x y => x.start < y.start) m.memory)
    (hfind : find_block_first_fit m.memory sz = some j) :
    ∃ b, m.memory[j]? = some b ∧ eligibleBlock sz b ∧
      (∀ c ∈ m.memory.take j, ¬ eligibleBlock sz c) ∧
      (∀ c ∈ m.memory, eligibleBlock sz c → b.start ≤ c.start) ∧
      (allocate_memory m p sz "first_fit").1 = some b.start := by
  rcases find_block_first_fit_some m.memory sz j hfind with
    ⟨l1, b, l2, hmem, hlen, helig, hl1⟩
  have hb : m.memory[j]? = some b := by
    rw [hmem, ← hlen]
    exact getElem_append_cons l1 b l2
  refine ⟨b, hb, helig, ?_, ?_, ?_⟩
  · intro c hc
    rw [hmem, ← hlen, take_append_cons] at hc
    exact hl1 c hc
  · intro c hc he
    rw [hmem] at hc
    rcases List.mem_append.mp hc with hc | hc
    · exact absurd he (hl1 c hc)
    · rcases List.mem_cons.mp hc with rfl | hc
      · exact le_refl _
      · rw [hmem] at hsorted
        exact le_of_lt (start_lt_of_sorted_append l1 b l2 hsorted c hc)
  · have hsz2 : ¬ sz ≤ 0 := by omega
    have hst : ("first_fit" : String) = "first_fit" ∨ ("first_fit" : String) = "best_fit" :=
      Or.inl rfl
    have hcand : (if ("first_fit" : String) = "first_fit" then
        find_block_first_fit m.memory sz else find_block_best_fit m.memory sz) = some j := by
      rw [if_pos rfl]
      exact hfind
    by_cases hex : b.size = sz
    · rw [allocate_eq_of_exact m p sz "first_fit" j b hsz2 hst hcand hb hex]
    · rw [allocate_eq_of_split m p sz "first_fit" j b hsz2 hst hcand hb hex]

/-- C8 witness: the first free block of size at least 20 sits at index 3. -/
theorem c8_witness :
    (∃ b, (⟨100, [⟨0, 10, Status.occupied, some 1⟩, ⟨10, 15, Status.free, none⟩, ⟨25, 5, Status.occupied, some 2⟩, ⟨30, 70, Status.free, none⟩]⟩ : MemoryManager).memory[3]? = some b ∧ eligibleBlock 20 b ∧
      (∀ c ∈ (⟨100, [⟨0, 10, Status.occupied, some 1⟩, ⟨10, 15, Status.free, none⟩, ⟨25, 5, Status.occupied, some 2⟩, ⟨30, 70, Status.free, none⟩]⟩ : MemoryManager).memory.take 3, ¬ eligibleBlock 20 c) ∧
      (∀ c ∈ (⟨100, [⟨0, 10, Status.occupied, some 1⟩, ⟨10, 15, Status.free, none⟩, ⟨25, 5, Status.occupied, some 2⟩, ⟨30, 70, Status.free, none⟩]⟩ : MemoryManager).memory, eligibleBlock 20 c → b.start ≤ c.start) ∧
      (allocate_memory (⟨100, [⟨0, 10, Status.occupied, some 1⟩, ⟨10, 15, Status.free, none⟩, ⟨25, 5, Status.occupied, some 2⟩, ⟨30, 70, Status.free, none⟩]⟩ : MemoryManager) 4 20 "first_fit").1 = some b.start) ∧
    find_block_first_fit (⟨100, [⟨0, 10, Status.occupied, some 1⟩, ⟨10, 15, Status.free, none⟩, ⟨25, 5, Status.occupied, some 2⟩, ⟨30, 70, Status.free, none⟩]⟩ : MemoryManager).memory 20 = some 3 :=
  ⟨c8_first_fit_selection (⟨100, [⟨0, 10, Status.occupied, some 1⟩, ⟨10, 15, Status.free, none⟩, ⟨25, 5, Status.occupied, some 2⟩, ⟨30, 70, Status.free, none⟩]⟩ : MemoryManager) 4 20 3 (by decide) (by simp [List.chain'_cons]) (by decide),
   by decide⟩

/-- C1: starting from any valid construction, after any finite sequence of
allocate/deallocate calls the block list is gapless from address 0 (each
block starts where the previous one ends), nonempty with first start 0,
sums to the constructed total size, has no two adjacent free blocks, and is
sorted by strictly ascending start. -/
theorem c1_invariant_preservation (total : Int) (m0 : MemoryManager) (ops : List Op)
    (h0 : MemoryManager.init total = some m0) :
    chainFrom 0 (run m0 ops).memory ∧
    (run m0 ops).memory ≠ [] ∧
    (∀ b ∈ (run m0 ops).memory.head?, b.start = 0) ∧
    sumSizes (run m0 ops).memory = total ∧
    noAdjFree (run m0 ops).memory ∧
    List.Chain' (fun x y => x.start < y.start) (run m0 ops).memory := by
  rcases MgrInv_init total m0 h0 with ⟨hinv, htot, hpos⟩
  rcases MgrInv_run m0 ops hinv with ⟨h1, h2, h3, h4, _⟩
  have htot2 : (run m0 ops).total_memory_size = total := by rw [total_run, htot]
  have hsum : sumSizes (run m0 ops).memory = total := by rw [h3, htot2]
  have hne : (run m0 ops).memory ≠ [] := by
    intro hnil
    rw [hnil, sumSizes_nil] at hsum
    omega
  refine ⟨h1, hne, ?_, hsum, h4, chainFrom_strict_chain _ 0 h1 h2⟩
  intro b hb
  cases hm : (run m0 ops).memory with
  | nil => rw [hm] at hb; simp at hb
  | cons x xs =>
    rw [hm] at hb h1
    simp only [List.head?_cons, Option.mem_def, Option.some.injEq] at hb
    rcases (chainFrom_cons 0 x xs).mp h1 with ⟨hx, _⟩
    rw [← hb]
    exact hx

/-- C1 witness: a concrete construction and call sequence. -/
theorem c1_witness :
    chainFrom 0 (run ⟨100, [⟨0, 100, Status.free, none⟩]⟩
      [Op.alloc 1 30 "first_fit", Op.alloc 2 70 "best_fit", Op.dealloc 1]).memory ∧
    (run ⟨100, [⟨0, 100, Status.free, none⟩]⟩
      [Op.alloc 1 30 "first_fit", Op.alloc 2 70 "best_fit", Op.dealloc 1]).memory ≠ [] ∧
    (∀ b ∈ (run ⟨100, [⟨0, 100, Status.free, none⟩]⟩
      [Op.alloc 1 30 "first_fit", Op.alloc 2 70 "best_fit", Op.dealloc 1]).memory.head?,
        b.start = 0) ∧
    sumSizes (run ⟨100, [⟨0, 100, Status.free, none⟩]⟩
      [Op.alloc 1 30 "first_fit", Op.alloc 2 70 "best_fit", Op.dealloc 1]).memory = 100 ∧
    noAdjFree (run ⟨100, [⟨0, 100, Status.free, none⟩]⟩
      [Op.alloc 1 30 "first_fit", Op.alloc 2 70 "best_fit", Op.dealloc 1]).memory ∧
    List.Chain' (fun x y => x.start < y.start) (run ⟨100, [⟨0, 100, Status.free, none⟩]⟩
      [Op.alloc 1 30 "first_fit", Op.alloc 2 70 "best_fit", Op.dealloc 1]).memory :=
  c1_invariant_preservation 100 ⟨100, [⟨0, 100, Status.free, none⟩]⟩
    [Op.alloc 1 30 "first_fit", Op.alloc 2 70 "best_fit", Op.dealloc 1] (by decide)

/-- C3 counterexample: the core never checks whether an owner already holds
a block, so two allocate calls with owner 1 on a freshly constructed manager
leave two occupied blocks carrying owner 1. -/
theorem c3_counterexample :
    MemoryManager.init 100 = some ⟨100, [⟨0, 100, Status.free, none⟩]⟩ ∧
    countOwner (run ⟨100, [⟨0, 100, Status.free, none⟩]⟩
      [Op.alloc 1 10 "first_fit", Op.alloc 1 10 "first_fit"]).memory 1 = 2 := by
  decide

/-- C3 (amended): if every allocate call in the sequence uses an owner that
holds no occupied block at the time of the call, then at most one occupied
block carries any given owner at any time. -/
theorem c3_unique_owner (total : Int) (m0 : MemoryManager) (ops : List Op) (p : Int)
    (h0 : MemoryManager.init total = some m0) (hfresh : FreshAllocs m0 ops) :
    countOwner (run m0 ops).memory p ≤ 1 := by
  have hbase : ∀ q, countOwner m0.memory q ≤ 1 := by
    rw [MemoryManager.init] at h0
    by_cases htot : total ≤ 0
    · rw [if_pos htot] at h0
      cases h0
    · rw [if_neg htot] at h0
      injection h0 with h0
      subst h0
      intro q
      show countOwner [⟨0, total, Status.free, none⟩] q ≤ 1
      rw [countOwner_cons, countOwner_nil]
      simp
  exact countOwner_le_one_run ops m0 hbase hfresh p

/-- C3 witness: a fresh-owner call sequence keeps ownership unique. -/
theorem c3_witness :
    countOwner (run ⟨50, [⟨0, 50, Status.free, none⟩]⟩
      [Op.alloc 1 10 "first_fit", Op.alloc 2 10 "first_fit", Op.dealloc 1,
       Op.alloc 3 5 "best_fit"]).memory 2 ≤ 1 :=
  c3_unique_owner 50 ⟨50, [⟨0, 50, Status.free, none⟩]⟩
    [Op.alloc 1 10 "first_fit", Op.alloc 2 10 "first_fit", Op.dealloc 1,
     Op.alloc 3 5 "best_fit"] 2 (by decide) (by decide)

/-- C4: when the chosen candidate block fits exactly, allocation converts it
in place (same list position, same block count) and returns its start; when the
candidate is strictly larger, the candidate is replaced by an occupied block
of the requested size followed by a free remainder, the block count grows by
one, and the occupied block's start is returned. -/
theorem c4_exact_fit_and_split (m : MemoryManager) (p sz : Int) (st : String)
    (i : Nat) (b : Block)
    (hsz : 0 < sz) (hst : st = "first_fit" ∨ st = "best_fit")
    (hfind : (if st = "first_fit" then find_block_first_fit m.memory sz
              else find_block_best_fit m.memory sz) = some i)
    (hb : m.memory[i]? = some b) :
    (b.size = sz →
      allocate_memory m p sz st =
        (some b.start, ⟨m.total_memory_size,
          m.memory.set i ⟨b.start, b.size, Status.occupied, some p⟩⟩) ∧
      (allocate_memory m p sz st).2.memory.length = m.memory.length) ∧
    (sz < b.size →
      allocate_memory m p sz st =
        (some b.start, ⟨m.total_memory_size,
          m.memory.take i ++ [⟨b.start, sz, Status.occupied, some p⟩,
            ⟨b.start + sz, b.size - sz, Status.free, none⟩] ++ m.memory.drop (i + 1)⟩) ∧
      (allocate_memory m p sz st).2.memory.length = m.memory.length + 1) := by
  have hsz2 : ¬ sz ≤ 0 := by omega
  have hi : i < m.memory.length := (List.getElem?_eq_some_iff.mp hb).1
  constructor
  · intro hex
    have heq := allocate_eq_of_exact m p sz st i b hsz2 hst hfind hb hex
    refine ⟨heq, ?_⟩
    rw [heq]
    exact List.length_set m.memory i _
  · intro hlt
    have hne : ¬ b.size = sz := by omega
    have heq := allocate_eq_of_split m p sz st i b hsz2 hst hfind hb hne
    refine ⟨heq, ?_⟩
    rw [heq]
    show (m.memory.take i ++ _ ++ m.memory.drop (i + 1)).length = m.memory.length + 1
    rw [List.length_append, List.length_append, List.length_take, List.length_drop]
    simp only [List.length_cons, List.length_nil]
    omega

/-- C4 witness: splitting the initial 100-unit free block with a 40-unit
request. -/
theorem c4_witness :
    (((⟨0, 100, Status.free, none⟩ : Block).size = 40 →
      allocate_memory ⟨100, [⟨0, 100, Status.free, none⟩]⟩ 1 40 "first_fit" =
        (some (⟨0, 100, Status.free, none⟩ : Block).start,
         ⟨(⟨100, [⟨0, 100, Status.free, none⟩]⟩ : MemoryManager).total_memory_size,
          (⟨100, [⟨0, 100, Status.free, none⟩]⟩ : MemoryManager).memory.set 0
            ⟨(⟨0, 100, Status.free, none⟩ : Block).start,
             (⟨0, 100, Status.free, none⟩ : Block).size, Status.occupied, some 1⟩⟩) ∧
      (allocate_memory ⟨100, [⟨0, 100, Status.free, none⟩]⟩ 1 40 "first_fit").2.memory.length =
        (⟨100, [⟨0, 100, Status.free, none⟩]⟩ : MemoryManager).memory.length) ∧
    (40 < (⟨0, 100, Status.free, none⟩ : Block).size →
      allocate_memory ⟨100, [⟨0, 100, Status.free, none⟩]⟩ 1 40 "first_fit" =
        (some (⟨0, 100, Status.free, none⟩ : Block).start,
         ⟨(⟨100, [⟨0, 100, Status.free, none⟩]⟩ : MemoryManager).total_memory_size,
          (⟨100, [⟨0, 100, Status.free, none⟩]⟩ : MemoryManager).memory.take 0 ++
            [⟨(⟨0, 100, Status.free, none⟩ : Block).start, 40, Status.occupied, some 1⟩,
             ⟨(⟨0, 100, Status.free, none⟩ : Block).start + 40,
              (⟨0, 100, Status.free, none⟩ : Block).size - 40, Status.free, none⟩] ++
            (⟨100, [⟨0, 100, Status.free, none⟩]⟩ : MemoryManager).memory.drop (0 + 1)⟩) ∧
      (allocate_memory ⟨100, [⟨0, 100, Status.free, none⟩]⟩ 1 40 "first_fit").2.memory.length =
        (⟨100, [⟨0, 100, Status.free, none⟩]⟩ : MemoryManager).memory.length + 1)) :=
  c4_exact_fit_and_split ⟨100, [⟨0, 100, Status.free, none⟩]⟩ 1 40 "first_fit" 0
    ⟨0, 100, Status.free, none⟩ (by decide) (Or.inl rfl) (by decide) (by decide)

theorem chain_le_replace_mid (l1 l2 : List Block) (x y : Block) (hxy : y.start = x.start)
    (h : List.Chain' (fun a b => a.start ≤ b.start) (l1 ++ x :: l2)) :
    List.Chain' (fun a b => a.start ≤ b.start) (l1 ++ y :: l2) := by
  rw [List.chain'_append] at h ⊢
  rcases h with ⟨ha, hb, hc⟩
  rw [List.chain'_cons'] at hb
  refine ⟨ha, ?_, ?_⟩
  · rw [List.chain'_cons']
    refine ⟨?_, hb.2⟩
    intro z hz
    rw [hxy]
    exact hb.1 z hz
  · intro u hu v hv
    simp only [List.head?_cons, Option.mem_def, Option.some.injEq] at hv
    rw [← hv, hxy]
    exact hc u hu x (by simp)

/-- C6: `deallocate_memory` fails exactly when no occupied block carries the
owner, and a failed call leaves the block list unchanged; on success the
first matching occupied block in list order becomes free with its owner
cleared, the coalescing pass runs on the result, and the returned block list
has no two adjacent free blocks. -/
theorem c6_deallocate_spec (m : MemoryManager) (p : Int)
    (hs : List.Chain' (fun x y => x.start ≤ y.start) m.memory) :
    ((deallocate_memory m p).1 = false ↔
      ∀ b ∈ m.memory, ¬ (b.status = Status.occupied ∧ b.pid = some p)) ∧
    ((deallocate_memory m p).1 = false → (deallocate_memory m p).2 = m) ∧
    ((deallocate_memory m p).1 = true →
      ∃ l1 b l2, m.memory = l1 ++ b :: l2 ∧
        b.status = Status.occupied ∧ b.pid = some p ∧
        (∀ c ∈ l1, ¬ (c.status = Status.occupied ∧ c.pid = some p)) ∧
        (deallocate_memory m p).2.memory =
          coalesce_free_blocks (l1 ++ ⟨b.start, b.size, Status.free, none⟩ :: l2) ∧
        noAdjFree (deallocate_memory m p).2.memory) := by
  rcases hf : find_occupied_index m.memory p with _ | i
  · rw [deallocate_eq_of_none m p hf]
    refine ⟨⟨fun _ => (find_occupied_index_none_iff m.memory p).mp hf, fun _ => rfl⟩,
      fun _ => rfl, ?_⟩
    intro hcon
    exact absurd hcon (by simp)
  · rcases find_occupied_index_some m.memory p i hf with ⟨l1, b, l2, hmem, hlen, hocc, hpid, hl1⟩
    have hb : m.memory[i]? = some b := by
      rw [hmem, ← hlen]
      exact getElem_append_cons l1 b l2
    rw [deallocate_eq_of_some m p i b hf hb]
    have hset : m.memory.set i ⟨b.start, b.size, Status.free, none⟩ =
        l1 ++ ⟨b.start, b.size, Status.free, none⟩ :: l2 := by
      rw [hmem, ← hlen, set_append_cons]
    refine ⟨⟨fun hcon => absurd hcon (by simp),
      fun hall => absurd ⟨hocc, hpid⟩ (hall b (by rw [hmem]; simp))⟩,
      fun hcon => absurd hcon (by simp), ?_⟩
    intro _
    refine ⟨l1, b, l2, hmem, hocc, hpid, hl1, by rw [hset], ?_⟩
    show noAdjFree (coalesce_free_blocks (m.memory.set i ⟨b.start, b.size, Status.free, none⟩))
    rw [hset]
    have hchain : List.Chain' (fun x y => x.start ≤ y.start)
        (l1 ++ ⟨b.start, b.size, Status.free, none⟩ :: l2) := by
      apply chain_le_replace_mid l1 l2 b ⟨b.start, b.size, Status.free, none⟩ rfl
      rw [← hmem]
      exact hs
    rw [coalesce_of_chain_le _ hchain]
    exact coalesceAux_noAdjFree _

/-- C6 witness at a concrete state. -/
theorem c6_witness :
    (((deallocate_memory ⟨30, [⟨0, 10, Status.occupied, some 1⟩,
        ⟨10, 20, Status.free, none⟩]⟩ 1).1 = false ↔
      ∀ b ∈ (⟨30, [⟨0, 10, Status.occupied, some 1⟩, ⟨10, 20, Status.free, none⟩]⟩ :
          MemoryManager).memory, ¬ (b.status = Status.occupied ∧ b.pid = some 1)) ∧
    ((deallocate_memory ⟨30, [⟨0, 10, Status.occupied, some 1⟩,
        ⟨10, 20, Status.free, none⟩]⟩ 1).1 = false →
      (deallocate_memory ⟨30, [⟨0, 10, Status.occupied, some 1⟩,
        ⟨10, 20, Status.free, none⟩]⟩ 1).2 =
        ⟨30, [⟨0, 10, Status.occupied, some 1⟩, ⟨10, 20, Status.free, none⟩]⟩) ∧
    ((deallocate_memory ⟨30, [⟨0, 10, Status.occupied, some 1⟩,
        ⟨10, 20, Status.free, none⟩]⟩ 1).1 = true →
      ∃ l1 b l2, (⟨30, [⟨0, 10, Status.occupied, some 1⟩, ⟨10, 20, Status.free, none⟩]⟩ :
          MemoryManager).memory = l1 ++ b :: l2 ∧
        b.status = Status.occupied ∧ b.pid = some 1 ∧
        (∀ c ∈ l1, ¬ (c.status = Status.occupied ∧ c.pid = some 1)) ∧
        (deallocate_memory ⟨30, [⟨0, 10, Status.occupied, some 1⟩,
          ⟨10, 20, Status.free, none⟩]⟩ 1).2.memory =
          coalesce_free_blocks (l1 ++ ⟨b.start, b.size, Status.free, none⟩ :: l2) ∧
        noAdjFree (deallocate_memory ⟨30, [⟨0, 10, Status.occupied, some 1⟩,
          ⟨10, 20, Status.free, none⟩]⟩ 1).2.memory)) :=
  c6_deallocate_spec ⟨30, [⟨0, 10, Status.occupied, some 1⟩, ⟨10, 20, Status.free, none⟩]⟩ 1
    (by simp [List.chain'_cons])

theorem block_ext (x y : Block) (h1 : x.start = y.start) (h2 : x.size = y.size)
    (h3 : x.status = y.status) (h4 : x.pid = y.pid) : x = y := by
  cases x
  cases y
  simp only [] at h1 h2 h3 h4
  subst h1
  subst h2
  subst h3
  subst h4
  rfl

theorem find_occupied_index_first_match (p : Int) (l1 : List Block) (b : Block) (l2 : List Block)
    (hb : b.status = Status.occupied ∧ b.pid = some p)
    (hl1 : ∀ c ∈ l1, ¬ (c.status = Status.occupied ∧ c.pid = some p)) :
    find_occupied_index (l1 ++ b :: l2) p = some l1.length := by
  induction l1 with
  | nil => simp [find_occupied_index, if_pos hb]
  | cons x xs ih =>
    have hx : ¬ (x.status = Status.occupied ∧ x.pid = some p) := hl1 x (by simp)
    simp only [List.cons_append, find_occupied_index, if_neg hx]
    show Option.map (fun i => i + 1) (find_occupied_index (xs ++ b :: l2) p) =
      some (x :: xs).length
    rw [ih (fun c hc => hl1 c (by simp [hc]))]
    simp

theorem coalesceAux_append (l1 rest : List Block)
    (h1 : noAdjFree l1)
    (hsep : ∀ x ∈ l1.getLast?, x.status = Status.free →
        ∀ y ∈ (coalesceAux rest).head?, ¬ y.status = Status.free) :
    coalesceAux (l1 ++ rest) = l1 ++ coalesceAux rest := by
  induction l1 with
  | nil => rfl
  | cons x xs ih =>
    rw [noAdjFree, List.chain'_cons'] at h1
    cases xs with
    | nil =>
      rcases hcr : coalesceAux rest with _ | ⟨y, ys⟩
      · rw [List.singleton_append, coalesceAux_cons_nil x rest hcr]
        simp [hcr]
      · have hcond : ¬ (x.status = Status.free ∧ y.status = Status.free) := by
          intro hcon
          exact (hsep x (by simp) hcon.1 y (by rw [hcr]; simp)) hcon.2
        rw [List.singleton_append, coalesceAux_cons_cons x rest y ys hcr, if_neg hcond]
        simp [hcr]
    | cons z zs =>
      have hxs : coalesceAux ((z :: zs) ++ rest) = (z :: zs) ++ coalesceAux rest := by
        apply ih
        · exact h1.2
        · intro u hu huf v hv
          refine hsep u ?_ huf v hv
          rw [List.getLast?_cons_cons] at *
          exact hu
      have hz : ¬ (x.status = Status.free ∧ z.status = Status.free) := by
        intro hcon
        exact (h1.1 z (by simp)) hcon
      rw [List.cons_append, coalesceAux_cons_cons x ((z :: zs) ++ rest) z
        (zs ++ coalesceAux rest) (by rw [hxs]; simp), if_neg hz]
      simp

/-- C7 counterexample: if the owner already holds a block, deallocation frees
the first matching block rather than the new one, so reallocation returns a
different address; the state used is reachable from a valid construction. -/
theorem c7_counterexample :
    MemoryManager.init 30 = some ⟨30, [⟨0, 30, Status.free, none⟩]⟩ ∧
    (allocate_memory (run ⟨30, [⟨0, 30, Status.free, none⟩]⟩
      [Op.alloc 1 10 "first_fit", Op.alloc 2 10 "first_fit"]) 1 10 "first_fit").1 =
        some 20 ∧
    (deallocate_memory (allocate_memory (run ⟨30, [⟨0, 30, Status.free, none⟩]⟩
      [Op.alloc 1 10 "first_fit", Op.alloc 2 10 "first_fit"]) 1 10 "first_fit").2 1).1 =
        true ∧
    (allocate_memory (deallocate_memory (allocate_memory
      (run ⟨30, [⟨0, 30, Status.free, none⟩]⟩
        [Op.alloc 1 10 "first_fit", Op.alloc 2 10 "first_fit"]) 1 10 "first_fit").2 1).2
      1 10 "first_fit").1 = some 0 ∧
    (0 : Int) ≠ 20 := by
  decide

/-- C7 (amended): from any state satisfying the manager invariant in which
the owner holds no occupied block, a successful allocation followed by a
deallocation of the same owner restores the state exactly, so reallocating
the same size with the same strategy returns the same address. -/
theorem c7_realloc_roundtrip (m : MemoryManager) (p sz : Int) (st : String) (A : Int)
    (hinv : MgrInv m)
    (hfresh : ∀ b ∈ m.memory, ¬ (b.status = Status.occupied ∧ b.pid = some p))
    (hA : (allocate_memory m p sz st).1 = some A) :
    deallocate_memory (allocate_memory m p sz st).2 p = (true, m) ∧
    (allocate_memory (deallocate_memory (allocate_memory m p sz st).2 p).2 p sz st).1 =
      some A := by
  have hpair : allocate_memory m p sz st = (some A, (allocate_memory m p sz st).2) := by
    rw [← hA]
  rcases allocate_some_spec m p sz st A _ hpair with
    ⟨hsz, hst, l1, b, l2, hmem, helig, hAeq, htot, hcase⟩
  rcases hinv with ⟨h1, h2, h3, h4, h5⟩
  have hbpid : b.pid = none := h5 b (by rw [hmem]; simp) helig.1
  have h4d := h4
  rw [hmem, noAdjFree, List.chain'_append] at h4d
  rcases h4d with ⟨h41, h42, h43⟩
  rw [List.chain'_cons'] at h42
  have hl2head : ∀ y ∈ l2.head?, ¬ y.status = Status.free := by
    intro y hy hyf
    exact (h42.1 y hy) ⟨helig.1, hyf⟩
  have hl1last : ∀ x ∈ l1.getLast?, ¬ x.status = Status.free := by
    intro x hx hxf
    exact (h43 x hx b (by simp)) ⟨hxf, helig.1⟩
  have hfresh1 : ∀ c ∈ l1, ¬ (c.status = Status.occupied ∧ c.pid = some p) := by
    intro c hc
    exact hfresh c (by rw [hmem]; simp [hc])
  have hchain_m : List.Chain' (fun x y => x.start ≤ y.start) m.memory :=
    (chainFrom_strict_chain m.memory 0 h1 h2).imp (fun a b hab => le_of_lt hab)
  have hl2coal : coalesceAux l2 = l2 := coalesceAux_of_noAdjFree l2 h42.2
  have hkey : deallocate_memory (allocate_memory m p sz st).2 p = (true, m) := by
    rcases hcase with ⟨hexact, hmem1⟩ | ⟨hlt, hmem1⟩
    · have hfind1 : find_occupied_index (allocate_memory m p sz st).2.memory p =
          some l1.length := by
        rw [hmem1]
        exact find_occupied_index_first_match p l1 _ l2 ⟨rfl, rfl⟩ hfresh1
      have hb1 : (allocate_memory m p sz st).2.memory[l1.length]? =
          some ⟨b.start, b.size, Status.occupied, some p⟩ := by
        rw [hmem1]
        exact getElem_append_cons l1 _ l2
      rw [deallocate_eq_of_some _ p l1.length _ hfind1 hb1]
      have hfreed : (⟨(⟨b.start, b.size, Status.occupied, some p⟩ : Block).start,
          (⟨b.start, b.size, Status.occupied, some p⟩ : Block).size,
          Status.free, none⟩ : Block) = b :=
        block_ext _ b rfl rfl helig.1.symm hbpid.symm
      have hsetm : (allocate_memory m p sz st).2.memory.set l1.length
          ⟨(⟨b.start, b.size, Status.occupied, some p⟩ : Block).start,
           (⟨b.start, b.size, Status.occupied, some p⟩ : Block).size,
           Status.free, none⟩ = m.memory := by
        rw [hmem1, set_append_cons, hfreed, ← hmem]
      rw [hsetm, coalesce_of_chain_le _ hchain_m, coalesceAux_of_noAdjFree _ h4, htot]
    · have hfind1 : find_occupied_index (allocate_memory m p sz st).2.memory p =
          some l1.length := by
        rw [hmem1]
        exact find_occupied_index_first_match p l1 _ _ ⟨rfl, rfl⟩ hfresh1
      have hb1 : (allocate_memory m p sz st).2.memory[l1.length]? =
          some ⟨b.start, sz, Status.occupied, some p⟩ := by
        rw [hmem1]
        exact getElem_append_cons l1 _ _
      rw [deallocate_eq_of_some _ p l1.length _ hfind1 hb1]
      have hsetm : (allocate_memory m p sz st).2.memory.set l1.length
          ⟨(⟨b.start, sz, Status.occupied, some p⟩ : Block).start,
           (⟨b.start, sz, Status.occupied, some p⟩ : Block).size,
           Status.free, none⟩ =
          l1 ++ ⟨b.start, sz, Status.free, none⟩ ::
            ⟨b.start + sz, b.size - sz, Status.free, none⟩ :: l2 := by
        rw [hmem1, set_append_cons]
      rw [hsetm]
      -- compute the inner coalescing
      have hfr : coalesceAux (⟨b.start + sz, b.size - sz, Status.free, none⟩ :: l2) =
          ⟨b.start + sz, b.size - sz, Status.free, none⟩ :: l2 := by
        cases hl2 : l2 with
        | nil => exact coalesceAux_cons_nil _ [] rfl
        | cons y ys =>
          have hys : coalesceAux (y :: ys) = y :: ys := by rw [← hl2]; exact hl2coal
          rw [coalesceAux_cons_cons _ (y :: ys) y ys hys, if_neg]
          intro hcon
          exact (hl2head y (by rw [hl2]; simp)) hcon.2
      have hmid : coalesceAux (⟨b.start, sz, Status.free, none⟩ ::
          ⟨b.start + sz, b.size - sz, Status.free, none⟩ :: l2) = b :: l2 := by
        rw [coalesceAux_cons_cons _ _ _ l2 hfr, if_pos ⟨rfl, rfl⟩]
        exact congrArg (fun x => x :: l2)
          (block_ext _ b rfl (by show sz + (b.size - sz) = b.size; ring)
            helig.1.symm hbpid.symm)
      have happ : coalesceAux (l1 ++ ⟨b.start, sz, Status.free, none⟩ ::
          ⟨b.start + sz, b.size - sz, Status.free, none⟩ :: l2) = l1 ++ b :: l2 := by
        rw [coalesceAux_append l1 _ h41, hmid]
        intro x hx hxf
        exact absurd hxf (hl1last x hx)
      -- sortedness of the freed list for the final sort
      rw [hmem, chainFrom_append] at h1
      rcases h1 with ⟨h11, h12⟩
      rcases (chainFrom_cons _ b l2).mp h12 with ⟨hbst, h13⟩
      have hcf : chainFrom 0 (l1 ++ ⟨b.start, sz, Status.free, none⟩ ::
          ⟨b.start + sz, b.size - sz, Status.free, none⟩ :: l2) := by
        rw [chainFrom_append, chainFrom_cons, chainFrom_cons]
        refine ⟨h11, hbst, ?_, ?_⟩
        · show b.start + sz = 0 + sumSizes l1 + sz
          rw [hbst]
        · show chainFrom (0 + sumSizes l1 + sz + (b.size - sz)) l2
          have he : 0 + sumSizes l1 + sz + (b.size - sz) = 0 + sumSizes l1 + b.size := by
            ring
          rw [he]
          exact h13
      have hpos : ∀ d ∈ l1 ++ ⟨b.start, sz, Status.free, none⟩ ::
          ⟨b.start + sz, b.size - sz, Status.free, none⟩ :: l2, 0 < d.size := by
        intro d hd
        rw [hmem] at h2
        rcases List.mem_append.mp hd with hd | hd
        · exact h2 d (by simp [hd])
        · rcases List.mem_cons.mp hd with rfl | hd
          · show (0 : Int) < sz
            omega
          · rcases List.mem_cons.mp hd with rfl | hd
            · show (0 : Int) < b.size - sz
              omega
            · exact h2 d (by simp [hd])
      have hchain_f : List.Chain' (fun x y => x.start ≤ y.start)
          (l1 ++ ⟨b.start, sz, Status.free, none⟩ ::
            ⟨b.start + sz, b.size - sz, Status.free, none⟩ :: l2) :=
        (chainFrom_strict_chain _ 0 hcf hpos).imp (fun a b hab => le_of_lt hab)
      rw [coalesce_of_chain_le _ hchain_f, happ, ← hmem, htot]
  refine ⟨hkey, ?_⟩
  rw [hkey]
  exact hA

/-- C7 witness: allocating 30 units for a fresh owner at address 20,
deallocating, and reallocating returns address 20 again. -/
theorem c7_witness :
    deallocate_memory (allocate_memory
      ⟨100, [⟨0, 20, Status.occupied, some 5⟩, ⟨20, 80, Status.free, none⟩]⟩
      1 30 "first_fit").2 1 =
      (true, ⟨100, [⟨0, 20, Status.occupied, some 5⟩, ⟨20, 80, Status.free, none⟩]⟩) ∧
    (allocate_memory (deallocate_memory (allocate_memory
      ⟨100, [⟨0, 20, Status.occupied, some 5⟩, ⟨20, 80, Status.free, none⟩]⟩
      1 30 "first_fit").2 1).2 1 30 "first_fit").1 = some 20 :=
  c7_realloc_roundtrip
    ⟨100, [⟨0, 20, Status.occupied, some 5⟩, ⟨20, 80, Status.free, none⟩]⟩ 1 30 "first_fit" 20
    (by unfold MgrInv
        refine ⟨by decide, by decide, by decide, ?_, by decide⟩
        simp [noAdjFree, List.chain'_cons])
    (by decide) (by decide)
